import Mathlib

/-!
# Verification of the VCCE TCP server core (src/index.js, src/openai.js)

A shallow embedding, in Lean 4, of the framed command protocol and dispatch
engine of the VCCE server:

* the frame codec (`encode`, the 4-byte little-endian length prefix),
* the connection buffer (the frame-extraction `while` loop of `onClient`),
* the recursive project walk with a byte budget (`readProjectFiles`),
* the session cache, the patch registry and the `handleCommand` dispatcher
  (with the filesystem, the process spawner and the OpenAI call abstracted
  as an explicit environment of effectful operations), and
* an event-loop connection machine modelling the scheduling of `onClient`'s
  `async` data handler, used for the temporal and concurrency properties.

Bytes are modelled as `Nat` (each byte `< 256` where it matters); machine
integers use explicit `% 2 ^ 32`.  Fallible operations return `Except`.
-/

namespace VCCE

/-! ## Frame codec: `encode` (src/index.js lines 33-39)

`encode(obj)` serializes `obj` to a UTF-8 JSON buffer `json`, then produces
`4`-byte unsigned little-endian `json.length` followed by `json`.
The JSON serialization itself (`JSON.stringify` / `Buffer.from(_, 'utf8')`)
is a JavaScript builtin, external to the repository; the codec below
operates on the serialized byte list. -/

/-- The four bytes written by `buf.writeUInt32LE(n, 0)` (little-endian).
`writeUInt32LE` throws unless `n < 2^32`, so callers carry that bound. -/
def u32le (n : Nat) : List Nat :=
  [n % 256, n / 256 % 256, n / 65536 % 256, n / 16777216 % 256]

/-- `encode` on an already-serialized JSON byte list: the 4-byte LE length
prefix followed by the payload (src/index.js lines 33-39). -/
def encodeFrame (json : List Nat) : List Nat :=
  u32le json.length ++ json

/-- `buffer.readUInt32LE(0)`: the unsigned little-endian 32-bit value of the
first four bytes (bytes past the end read as 0; the source only calls this
when at least 4 bytes are buffered). -/
def readU32 (b : List Nat) : Nat :=
  b.getD 0 0 + b.getD 1 0 * 256 + b.getD 2 0 * 65536 + b.getD 3 0 * 16777216

/-! ## Connection buffer (src/index.js lines 237-259)

`onClient`'s data handler appends the chunk to `buffer` and then runs:

```
while (buffer.length >= 4) {
  const len = buffer.readUInt32LE(0);
  if (buffer.length < 4 + len) break;      // wait for full frame
  const jsonBuf = buffer.slice(4, 4 + len);
  buffer = buffer.slice(4 + len);
  ... JSON.parse(jsonBuf) ... await handleCommand ...
}
```

`processBufferFuel` is that loop restricted to frame extraction: it returns
the list of complete frame payloads in the buffer, in order, together with
the leftover bytes.  Each iteration consumes `4 + len ≥ 4` bytes, so
`buffer.length` is always enough fuel; the fuel only makes the recursion
structural so that concrete runs evaluate. -/

def processBufferFuel : Nat → List Nat → List (List Nat) × List Nat
  | 0, buf => ([], buf)
  | fuel + 1, buf =>
    if 4 ≤ buf.length then
      let len := readU32 buf
      if 4 + len ≤ buf.length then
        let r := processBufferFuel fuel (buf.drop (4 + len))
        ((buf.drop 4).take len :: r.1, r.2)
      else ([], buf)
    else ([], buf)

/-- The frame-extraction loop of `onClient`: all complete frames available in
`buf`, plus the retained partial trailing bytes. -/
def processBuffer (buf : List Nat) : List (List Nat) × List Nat :=
  processBufferFuel buf.length buf

/-- Feeding a sequence of TCP chunks to the connection buffer: each `data`
event concatenates the chunk onto the retained buffer and extracts every
complete frame (src/index.js lines 237-244).  Returns all payloads yielded
across the whole sequence, and the final retained buffer. -/
def feedChunks (chunks : List (List Nat)) : List (List Nat) × List Nat :=
  chunks.foldl
    (fun acc chunk =>
      let r := processBuffer (acc.2 ++ chunk)
      (acc.1 ++ r.1, r.2))
    ([], [])

/-! ### Basic lemmas about the buffer loop -/

theorem readU32_u32le_append (n : Nat) (rest : List Nat) (h : n < 2 ^ 32) :
    readU32 (u32le n ++ rest) = n := by
  simp only [u32le, readU32, List.cons_append, List.getD_cons_zero, List.getD_cons_succ]
  omega

/-- `readU32` only depends on the first four bytes. -/
theorem readU32_append (b extra : List Nat) (h : 4 ≤ b.length) :
    readU32 (b ++ extra) = readU32 b := by
  unfold readU32
  rw [List.getD_append _ _ _ _ (by omega), List.getD_append _ _ _ _ (by omega),
    List.getD_append _ _ _ _ (by omega), List.getD_append _ _ _ _ (by omega)]

/-- The fuel is irrelevant as soon as it is at least the buffer length:
each loop iteration consumes at least 4 bytes. -/
theorem processBufferFuel_congr :
    ∀ f₁ f₂ buf, buf.length ≤ f₁ → buf.length ≤ f₂ →
      processBufferFuel f₁ buf = processBufferFuel f₂ buf := by
  intro f₁
  induction f₁ with
  | zero =>
    intro f₂ buf h1 _
    have hb : buf = [] := List.eq_nil_of_length_eq_zero (by omega)
    subst hb
    cases f₂ <;> simp [processBufferFuel]
  | succ f ih =>
    intro f₂ buf h1 h2
    cases f₂ with
    | zero =>
      have hb : buf = [] := List.eq_nil_of_length_eq_zero (by omega)
      subst hb
      simp [processBufferFuel]
    | succ g =>
      simp only [processBufferFuel]
      by_cases h4 : 4 ≤ buf.length
      · simp only [if_pos h4]
        by_cases hlen : 4 + readU32 buf ≤ buf.length
        · simp only [if_pos hlen]
          have hdrop : (buf.drop (4 + readU32 buf)).length ≤ f := by
            rw [List.length_drop]; omega
          have hdrop' : (buf.drop (4 + readU32 buf)).length ≤ g := by
            rw [List.length_drop]; omega
          rw [ih g _ hdrop hdrop']
        · simp only [if_neg hlen]
      · simp only [if_neg h4]

/-- One-step unfolding of the frame-extraction loop, fuel erased. -/
theorem processBuffer_eq (buf : List Nat) :
    processBuffer buf =
      if 4 ≤ buf.length then
        if 4 + readU32 buf ≤ buf.length then
          let r := processBuffer (buf.drop (4 + readU32 buf))
          ((buf.drop 4).take (readU32 buf) :: r.1, r.2)
        else ([], buf)
      else ([], buf) := by
  unfold processBuffer
  cases buf with
  | nil => simp [processBufferFuel]
  | cons x xs =>
    simp only [List.length_cons, processBufferFuel]
    by_cases h4 : 4 ≤ xs.length + 1
    · simp only [List.length_cons, if_pos h4]
      by_cases hlen : 4 + readU32 (x :: xs) ≤ xs.length + 1
      · simp only [List.length_cons, if_pos hlen]
        have hd : ((x :: xs).drop (4 + readU32 (x :: xs))).length ≤ xs.length := by
          rw [List.length_drop, List.length_cons]; omega
        rw [processBufferFuel_congr xs.length ((x :: xs).drop (4 + readU32 (x :: xs))).length _
          hd le_rfl]
      · simp only [List.length_cons, if_neg hlen]
    · simp only [List.length_cons, if_neg h4]

/-- Incrementality of the frame-extraction loop: processing `buf ++ extra`
first yields exactly the frames extracted from `buf` alone, then continues
on the leftover of `buf` with `extra` appended. -/
theorem processBuffer_append (buf extra : List Nat) :
    processBuffer (buf ++ extra) =
      ((processBuffer buf).1 ++ (processBuffer ((processBuffer buf).2 ++ extra)).1,
        (processBuffer ((processBuffer buf).2 ++ extra)).2) := by
  generalize hn : buf.length = n
  induction n using Nat.strong_induction_on generalizing buf with
  | _ n ih =>
    subst hn
    by_cases h4 : 4 ≤ buf.length
    · by_cases hlen : 4 + readU32 buf ≤ buf.length
      · have hstep : processBuffer buf =
            ((buf.drop 4).take (readU32 buf) :: (processBuffer (buf.drop (4 + readU32 buf))).1,
              (processBuffer (buf.drop (4 + readU32 buf))).2) := by
          rw [processBuffer_eq buf, if_pos h4, if_pos hlen]
        have h4' : 4 ≤ (buf ++ extra).length := by
          rw [List.length_append]; omega
        have hr : readU32 (buf ++ extra) = readU32 buf := readU32_append buf extra h4
        have hlen' : 4 + readU32 (buf ++ extra) ≤ (buf ++ extra).length := by
          rw [List.length_append, hr]; omega
        have hdrop4 : (buf ++ extra).drop 4 = buf.drop 4 ++ extra :=
          List.drop_append_of_le_length (by omega)
        have htake : ((buf ++ extra).drop 4).take (readU32 buf)
            = (buf.drop 4).take (readU32 buf) := by
          rw [hdrop4]
          exact List.take_append_of_le_length (by rw [List.length_drop]; omega)
        have hdropl : (buf ++ extra).drop (4 + readU32 buf)
            = buf.drop (4 + readU32 buf) ++ extra :=
          List.drop_append_of_le_length (by omega)
        have hlt : (buf.drop (4 + readU32 buf)).length < buf.length := by
          rw [List.length_drop]; omega
        rw [processBuffer_eq (buf ++ extra), if_pos h4', if_pos hlen', hr, htake, hdropl]
        rw [ih _ hlt _ rfl]
        rw [hstep]
        simp [List.cons_append]
      · have hstep : processBuffer buf = ([], buf) := by
          rw [processBuffer_eq buf, if_pos h4, if_neg hlen]
        rw [hstep]
        simp
    · have hstep : processBuffer buf = ([], buf) := by
        rw [processBuffer_eq buf, if_neg h4]
      rw [hstep]
      simp

theorem processBuffer_nil : processBuffer [] = ([], []) := rfl

/-- A whole frame at the head of the buffer is extracted: its payload is
yielded and processing continues past it. -/
theorem processBuffer_encodeFrame (p rest : List Nat) (hp : p.length < 2 ^ 32) :
    processBuffer (encodeFrame p ++ rest)
      = (p :: (processBuffer rest).1, (processBuffer rest).2) := by
  have hu : (u32le p.length).length = 4 := rfl
  have hlen : (encodeFrame p ++ rest).length = 4 + p.length + rest.length := by
    simp [encodeFrame, u32le]
    omega
  have hread : readU32 (encodeFrame p ++ rest) = p.length := by
    unfold encodeFrame
    rw [List.append_assoc]
    exact readU32_u32le_append p.length (p ++ rest) hp
  rw [processBuffer_eq, hread, if_pos (by omega), if_pos (by omega)]
  have hdrop4 : (encodeFrame p ++ rest).drop 4 = p ++ rest := by
    unfold encodeFrame
    rw [List.append_assoc]
    exact List.drop_left' hu
  have htake : ((encodeFrame p ++ rest).drop 4).take p.length = p := by
    rw [hdrop4]; exact List.take_left' rfl
  have hdropl : (encodeFrame p ++ rest).drop (4 + p.length) = rest := by
    unfold encodeFrame
    exact List.drop_left'
      (by simp only [u32le, List.length_append, List.length_cons, List.length_nil])
  rw [htake, hdropl]

/-- N complete frames coalesced in one buffer are all extracted at once. -/
theorem processBuffer_flatten (ps : List (List Nat))
    (hps : ∀ p ∈ ps, p.length < 2 ^ 32) :
    processBuffer (ps.map encodeFrame).flatten = (ps, []) := by
  induction ps with
  | nil => rfl
  | cons p rest ih =>
    rw [List.map_cons, List.flatten_cons,
      processBuffer_encodeFrame p _ (hps p (List.mem_cons_self p rest)),
      ih (fun q hq => hps q (List.mem_cons_of_mem p hq))]

/-- The leftover of the loop never contains a complete frame: re-running the
loop on it yields nothing. -/
theorem processBuffer_leftover (buf : List Nat) :
    processBuffer (processBuffer buf).2 = ([], (processBuffer buf).2) := by
  generalize hn : buf.length = n
  induction n using Nat.strong_induction_on generalizing buf with
  | _ n ih =>
    subst hn
    by_cases h4 : 4 ≤ buf.length
    · by_cases hlen : 4 + readU32 buf ≤ buf.length
      · have hstep : (processBuffer buf).2
            = (processBuffer (buf.drop (4 + readU32 buf))).2 := by
          rw [processBuffer_eq buf, if_pos h4, if_pos hlen]
        rw [hstep]
        exact ih _ (by rw [List.length_drop]; omega) _ rfl
      · have hstep : processBuffer buf = ([], buf) := by
          rw [processBuffer_eq buf, if_pos h4, if_neg hlen]
        rw [hstep, hstep]
    · have hstep : processBuffer buf = ([], buf) := by
        rw [processBuffer_eq buf, if_neg h4]
      rw [hstep, hstep]

/-- Feeding chunks one at a time accumulates exactly the frames of the
concatenated stream. -/
theorem feedChunks_flatten (chunks : List (List Nat)) :
    feedChunks chunks = processBuffer chunks.flatten := by
  suffices h : ∀ (cs : List (List Nat)) (fs : List (List Nat)) (rest : List Nat),
      processBuffer rest = ([], rest) →
      cs.foldl (fun acc chunk =>
          let r := processBuffer (acc.2 ++ chunk)
          (acc.1 ++ r.1, r.2)) (fs, rest)
        = (fs ++ (processBuffer (rest ++ cs.flatten)).1,
            (processBuffer (rest ++ cs.flatten)).2) by
    have h0 := h chunks [] [] processBuffer_nil
    unfold feedChunks
    rw [h0]
    simp
  intro cs
  induction cs with
  | nil =>
    intro fs rest hrest
    simp [hrest]
  | cons c cs ih =>
    intro fs rest hrest
    rw [List.foldl_cons]
    have hmid := processBuffer_leftover (rest ++ c)
    rw [ih (fs ++ (processBuffer (rest ++ c)).1) _ hmid]
    rw [List.flatten_cons, ← List.append_assoc]
    rw [processBuffer_append (rest ++ c) cs.flatten]
    simp [List.append_assoc]

/-- Frame-level decoding of a single complete frame, as performed by the
connection loop: read the 4-byte LE length prefix, slice off that many
payload bytes and hand them to the JSON parser (`JSON.parse` is a JavaScript
builtin external to the repository, abstracted as `parse`). -/
def decodeFrame {M : Type} (parse : List Nat → Option M) (bytes : List Nat) : Option M :=
  if bytes.length = 4 + readU32 bytes then parse (bytes.drop 4) else none

/-! ## Context cache: `readProjectFiles` (src/index.js lines 43-102)

The walk recursively enumerates a directory tree; per entry it computes the
`/`-normalized relative path, skips `.git/` contents and matcher-ignored
paths, pushes a `BINARY_FILE:` placeholder for binary extensions, and for
text files reads the content, adds its UTF-8 byte length to the running
`total` and — only if `total` has not exceeded `limitBytes` — pushes a
`FILE:` block.  On overflow it returns; the `if (total > limitBytes)
return;` at the end of each loop iteration propagates the stop out of
directory recursion.  The returned string is `parts.join('\n\n')`.

The directory tree is modelled as an inductive; a file's `content` is what
`fs.readFile(p, 'utf8')` would return (the model covers executions in which
every read succeeds; a read that throws is skipped by the source's inner
`catch` and contributes nothing).  The ignore matcher (the external
`ignore` package, or the fallback) is a `String → Bool` parameter. -/

/-- A directory tree rooted at the project directory. -/
inductive FsEntry where
  | file (name : String) (content : String)
  | dir (name : String) (entries : List FsEntry)

/-- `BINARY_EXTS` (src/index.js lines 16-21). -/
def BINARY_EXTS : List String :=
  [".png", ".jpg", ".jpeg", ".gif", ".bmp", ".webp", ".svg",
   ".mp3", ".wav", ".ogg", ".flac", ".m4a", ".aac",
   ".mp4", ".mkv", ".mov", ".avi", ".webm", ".wmv",
   ".zip", ".rar", ".7z", ".gz", ".tar"]

/-- `path.extname` on a basename: the suffix from the last `.`, except that
a dot in first position (dotfiles) or no dot yields `""`. -/
def extname (name : String) : String :=
  match (name.toList.reverse.findIdx? (· = '.')) with
  | none => ""
  | some j =>
    let i := name.toList.length - 1 - j
    if i = 0 then "" else String.mk (name.toList.drop i)

/-- `s.startsWith(p)`, re-implemented on character lists so that concrete
runs reduce inside the kernel. -/
def strStartsWith (s p : String) : Bool :=
  decide (s.toList.take p.toList.length = p.toList)

/-- `.toLowerCase()`, re-implemented on character lists so that concrete
runs reduce inside the kernel. -/
def lowerStr (s : String) : String :=
  String.mk (s.toList.map Char.toLower)

/-- The simple fallback `.gitignore` matcher built when the `ignore` package
is unavailable (src/index.js line 56): literal-prefix match against each
pattern line. -/
def simpleMatcher (lines : List String) (p : String) : Bool :=
  lines.any (fun r => strStartsWith p r)

/-- `matcher && matcher.ignores && matcher.ignores(rel)` with the matcher
possibly absent (no `.gitignore`). -/
def matcherIgnores (ign : Option (String → Bool)) (rel : String) : Bool :=
  match ign with
  | none => false
  | some f => f rel

/-- One entry of the `parts` array: either a binary placeholder or a
labeled text-file block.  The source pushes the rendered string directly;
`renderPart` is that rendering. -/
inductive Part where
  | binary (rel : String)
  | text (rel : String) (content : String)

def renderPart : Part → String
  | .binary rel => "BINARY_FILE: " ++ rel
  | .text rel c => "FILE: " ++ rel ++ "\n\n" ++ c

/-- The closure state of `readProjectFiles`' `walk`: the running byte
total, the accumulated parts, and whether the budget-overflow `return` has
fired. -/
structure WalkSt where
  total : Nat
  parts : List Part
  stopped : Bool

/-- `path.relative(root, p)` with `\` normalized to `/`, for an entry
`name` under the directory whose relative path is `pre`. -/
def relOf (pre name : String) : String :=
  if pre = "" then name else pre ++ "/" ++ name

mutual

/-- One iteration of `walk`'s `for` loop on a single directory entry
(src/index.js lines 65-98).  The terminal `if (total > limitBytes) return;`
of an iteration is live only after directory recursion: on the text-file
path a push happens only when `total ≤ limitBytes` already holds, on the
binary path `continue` skips the check with `total` unchanged, and on an
overflow the `return` fires directly. -/
def walkEntry (ign : Option (String → Bool)) (limit : Nat) (pre : String)
    (ent : FsEntry) (st : WalkSt) : WalkSt :=
  match ent with
  | .file name content =>
    let rel := relOf pre name
    if strStartsWith rel ".git/" then st
    else if matcherIgnores ign rel then st
    else if BINARY_EXTS.contains (lowerStr (extname name)) then
      { st with parts := st.parts ++ [.binary rel] }
    else
      let total' := st.total + content.utf8ByteSize
      if limit < total' then { total := total', parts := st.parts, stopped := true }
      else { total := total', parts := st.parts ++ [.text rel content], stopped := false }
  | .dir name entries =>
    let rel := relOf pre name
    if strStartsWith rel ".git/" then st
    else if matcherIgnores ign rel then st
    else
      let st' := walkList ign limit rel entries st
      if limit < st'.total then { st' with stopped := true } else st'
termination_by structural ent

/-- `walk` over the entries of one directory, threading the closure
state; once the budget-overflow `return` has fired (`stopped`), the
remaining entries are not visited. -/
def walkList (ign : Option (String → Bool)) (limit : Nat) (pre : String)
    (ents : List FsEntry) (st : WalkSt) : WalkSt :=
  match ents with
  | [] => st
  | e :: rest =>
    if st.stopped then st
    else walkList ign limit pre rest (walkEntry ign limit pre e st)
termination_by structural ents

end

/-- `walk(root)` from the initial closure state. -/
def runWalk (ign : Option (String → Bool)) (limit : Nat) (tree : List FsEntry) : WalkSt :=
  walkList ign limit "" tree ⟨0, [], false⟩

/-- `readProjectFiles(root, limitBytes)`: the aggregated context text
`parts.join('\n\n')`. -/
def readProjectFilesModel (ign : Option (String → Bool)) (limit : Nat)
    (tree : List FsEntry) : String :=
  String.intercalate "\n\n" (((runWalk ign limit tree).parts).map renderPart)

mutual

/-- The largest single file content size in an entry (an upper bound for
"the size of the file whose inclusion caused the overflow"). -/
def maxSizeE : FsEntry → Nat
  | .file _ c => c.utf8ByteSize
  | .dir _ es => maxSizeL es
termination_by structural e => e

def maxSizeL : List FsEntry → Nat
  | [] => 0
  | e :: rest => max (maxSizeE e) (maxSizeL rest)
termination_by structural l => l

end

/-- The file-content bytes actually included in the aggregation (what the
running `total` is compared against the budget for). -/
def contentBytes (ps : List Part) : Nat :=
  (ps.map fun p => match p with | .binary _ => 0 | .text _ c => c.utf8ByteSize).sum

theorem contentBytes_append (a b : List Part) :
    contentBytes (a ++ b) = contentBytes a + contentBytes b := by
  simp [contentBytes]

/-- The walk invariant: included content bytes are bounded by the running
total and by the budget; the running total exceeds the budget exactly when
the overflow `return` has fired, and then by at most one file's size. -/
def WalkInv (limit M : Nat) (st : WalkSt) : Prop :=
  contentBytes st.parts ≤ st.total
  ∧ contentBytes st.parts ≤ limit
  ∧ (st.stopped = false → st.total ≤ limit)
  ∧ (st.stopped = true → limit < st.total ∧ st.total ≤ limit + M)

mutual

theorem walkEntry_inv (ign : Option (String → Bool)) (limit : Nat) (pre : String)
    (ent : FsEntry) (st : WalkSt) (M : Nat) (hM : maxSizeE ent ≤ M)
    (hstop : st.stopped = false) (h : WalkInv limit M st) :
    WalkInv limit M (walkEntry ign limit pre ent st) := by
  obtain ⟨h1, h2, h3, h4⟩ := h
  cases ent with
  | file name content =>
    simp only [walkEntry]
    split
    · exact ⟨h1, h2, h3, h4⟩
    · split
      · exact ⟨h1, h2, h3, h4⟩
      · split
        · exact ⟨by simpa [contentBytes_append, contentBytes] using h1,
            by simpa [contentBytes_append, contentBytes] using h2, h3, h4⟩
        · have hsz : content.utf8ByteSize ≤ M := by
            simpa [maxSizeE] using hM
          have htot := h3 hstop
          split
          · rename_i hover
            refine ⟨le_trans h1 (Nat.le_add_right _ _), h2, by simp, fun _ => ⟨hover, ?_⟩⟩
            show st.total + content.utf8ByteSize ≤ limit + M
            omega
          · rename_i hover
            have hc : contentBytes (st.parts ++ [Part.text (relOf pre name) content])
                = contentBytes st.parts + content.utf8ByteSize := by
              rw [contentBytes_append]; simp [contentBytes]
            refine ⟨?_, ?_, fun _ => ?_, by simp⟩
            · show contentBytes (st.parts ++ [Part.text (relOf pre name) content])
                ≤ st.total + content.utf8ByteSize
              rw [hc]; omega
            · show contentBytes (st.parts ++ [Part.text (relOf pre name) content]) ≤ limit
              rw [hc]; omega
            · show st.total + content.utf8ByteSize ≤ limit
              omega
  | dir name entries =>
    simp only [walkEntry]
    split
    · exact ⟨h1, h2, h3, h4⟩
    · split
      · exact ⟨h1, h2, h3, h4⟩
      · have hrec := walkList_inv ign limit (relOf pre name) entries st M
          (by simpa [maxSizeE] using hM) ⟨h1, h2, h3, h4⟩
        obtain ⟨g1, g2, g3, g4⟩ := hrec
        split
        · rename_i hover
          refine ⟨g1, g2, by simp, fun _ => ⟨hover, ?_⟩⟩
          cases hs : (walkList ign limit (relOf pre name) entries st).stopped with
          | false => have := g3 hs; omega
          | true => exact (g4 hs).2
        · exact ⟨g1, g2, g3, g4⟩
termination_by structural ent

theorem walkList_inv (ign : Option (String → Bool)) (limit : Nat) (pre : String)
    (ents : List FsEntry) (st : WalkSt) (M : Nat) (hM : maxSizeL ents ≤ M)
    (h : WalkInv limit M st) : WalkInv limit M (walkList ign limit pre ents st) := by
  cases ents with
  | nil => simpa [walkList] using h
  | cons e rest =>
    simp only [walkList]
    split
    · exact h
    · rename_i hstop
      have hE : maxSizeE e ≤ M :=
        le_trans (le_max_left _ _) (by simpa [maxSizeL] using hM)
      have hR : maxSizeL rest ≤ M :=
        le_trans (le_max_right _ _) (by simpa [maxSizeL] using hM)
      exact walkList_inv ign limit pre rest (walkEntry ign limit pre e st) M hR
        (walkEntry_inv ign limit pre e st M hE (by simpa using hstop) h)
termination_by structural ents

end

/-- **C3 counterexample.**  The claim "the total size of the aggregated
context text never exceeds the byte budget plus the size of the single file
whose inclusion caused the overflow" is false: with budget 0 and a project
of two empty binary-extension files, `readProjectFiles` returns
`"BINARY_FILE: a.png\n\nBINARY_FILE: b.png"` (38 bytes), which exceeds
budget + the largest file size in the project (0 + 0).  The `BINARY_FILE:`
placeholders, `FILE:` headers and `\n\n` separators are never counted
against the budget, so the returned text can exceed it by an amount that
grows with the number of files, not by at most one file. -/
theorem claim_C3_counterexample :
    ¬ ((readProjectFilesModel none 0 [.file "a.png" "", .file "b.png" ""]).utf8ByteSize
        ≤ 0 + maxSizeL [.file "a.png" "", .file "b.png" ""]) := by
  decide

/-- **C3 (amended).**  For every project tree and byte budget, the *file
content bytes* included in the aggregated context never exceed the budget,
the running total of read content bytes never exceeds the budget plus the
size of one file (a bound `M` on the file sizes in the tree), and the walk
stops (the overflow `return` fires) only once the running total exceeds the
budget, returning what was aggregated so far.  The aggregated text
additionally contains per-file `FILE:` headers, `BINARY_FILE:` placeholders
and `\n\n` separators that are not counted against the budget. -/
theorem claim_C3_amended_budget (ign : Option (String → Bool)) (limit : Nat)
    (tree : List FsEntry) (M : Nat) (hM : maxSizeL tree ≤ M) :
    contentBytes (runWalk ign limit tree).parts ≤ limit
    ∧ (runWalk ign limit tree).total ≤ limit + M
    ∧ ((runWalk ign limit tree).stopped = true → limit < (runWalk ign limit tree).total) := by
  have h0 : WalkInv limit M ⟨0, [], false⟩ := by
    refine ⟨Nat.le_refl _, Nat.zero_le _, fun _ => Nat.zero_le _, fun hc => by cases hc⟩
  have h := walkList_inv ign limit "" tree ⟨0, [], false⟩ M hM h0
  have hrw : runWalk ign limit tree = walkList ign limit "" tree ⟨0, [], false⟩ := rfl
  rw [hrw]
  obtain ⟨h1, h2, h3, h4⟩ := h
  refine ⟨h2, ?_, fun hs => (h4 hs).1⟩
  cases hs : (walkList ign limit "" tree ⟨0, [], false⟩).stopped with
  | false =>
    have := h3 hs
    omega
  | true => exact (h4 hs).2

/-- Witness for the amended C3 at a concrete tree: budget 8, files of 5 and
6 bytes; the walk includes the 5-byte file (total 5 ≤ 8), reads the 6-byte
file (total 11 > 8), drops it and stops. -/
theorem claim_C3_amended_budget_witness :
    maxSizeL [FsEntry.file "a.txt" "hello", FsEntry.dir "d" [.file "b.txt" "world!"]] ≤ 6
    ∧ contentBytes
        (runWalk none 8 [FsEntry.file "a.txt" "hello", FsEntry.dir "d" [.file "b.txt" "world!"]]).parts
        ≤ 8
    ∧ (runWalk none 8 [FsEntry.file "a.txt" "hello", FsEntry.dir "d" [.file "b.txt" "world!"]]).total
        ≤ 8 + 6 := by
  have h := claim_C3_amended_budget none 8
    [FsEntry.file "a.txt" "hello", FsEntry.dir "d" [.file "b.txt" "world!"]] 6 (by decide)
  exact ⟨by decide, h.1, h.2.1⟩

/-! ## Data model: requests, responses, server state (src/index.js, src/openai.js)

Request ids are caller-assigned opaque tokens that the server only echoes;
they are modelled as `Option Nat` (`none` = absent/`null`).  Argument
values that the source only tests for truthiness (`newSession`, `apply`,
`recursive`) are modelled by their truth value; string arguments that the
source checks with `if (!x)` (falsy includes the empty string) are
`Option String` with the empty string handled at the check. -/

structure ChatMsg where
  role : String
  content : String
deriving DecidableEq

/-- The `args` fields destructured by the handlers (`const { cmd, args = {} } = req`
defaults every absent field to `undefined`). -/
structure Args where
  path : Option String := none
  data : Option String := none
  recursive : Bool := false
  oldPath : Option String := none
  newPath : Option String := none
  cwd : Option String := none
  command : Option String := none
  projectPath : Option String := none
  messages : List ChatMsg := []
  newSession : Bool := false
  key : Option String := none
  patchId : Option String := none
  apply : Bool := false
deriving DecidableEq

/-- A decoded client request `{id, cmd, args}`. -/
structure Request where
  id : Option Nat
  cmd : String
  args : Args
deriving DecidableEq

/-- The JSON data values the handlers actually produce in `data` fields. -/
inductive RespData where
  | str (s : String)
  | bool (b : Bool)
  | strs (xs : List String)
  | keyStatus (hasKey : Bool)
  | chatReply (reply : String) (pendingPatch : Option (String × String))
deriving DecidableEq

/-- A handler's `{ ok, data?, started? }` value, before `onClient` stamps
the request id onto it. -/
structure Resp where
  ok : Bool
  data : Option RespData := none
  started : Bool := false
deriving DecidableEq

/-- The response actually written: `resp.id = req.id` (src/index.js line 256). -/
structure WireResp where
  id : Option Nat
  ok : Bool
  data : Option RespData
  started : Bool
deriving DecidableEq

def finalizeResp (req : Request) (r : Resp) : WireResp :=
  ⟨req.id, r.ok, r.data, r.started⟩

/-- `{ filesText, lastUsed }` (src/index.js line 24). -/
structure Session where
  filesText : String
  lastUsed : Nat
deriving DecidableEq

/-- `{ projectPath, diff }` (src/index.js line 25). -/
structure PendingPatch where
  projectPath : String
  diff : String
deriving DecidableEq

/-- `Map.get`: the value bound to `k`, if any. -/
def mget {α : Type} : List (String × α) → String → Option α
  | [], _ => none
  | (k', v) :: rest, k => if k' = k then some v else mget rest k

/-- `Map.set`: replace the binding of `k` in place, else append. -/
def mset {α : Type} (m : List (String × α)) (k : String) (v : α) : List (String × α) :=
  match m with
  | [] => [(k, v)]
  | (k', v') :: rest => if k' = k then (k, v) :: rest else (k', v') :: mset rest k v

/-- `Map.delete`: afterwards no binding for `k` remains. -/
def mdel {α : Type} (m : List (String × α)) (k : String) : List (String × α) :=
  m.filter (fun e => decide (e.1 ≠ k))

theorem mget_mset_self {α : Type} (m : List (String × α)) (k : String) (v : α) :
    mget (mset m k v) k = some v := by
  induction m with
  | nil => simp [mget, mset]
  | cons e rest ih =>
    by_cases h : e.1 = k
    · simp [mset, mget, h]
    · simp only [mset]
      rw [if_neg (by exact h)]
      simpa [mget, h] using ih

theorem mget_mdel_self {α : Type} (m : List (String × α)) (k : String) :
    mget (mdel m k) k = none := by
  induction m with
  | nil => simp [mget, mdel]
  | cons e rest ih =>
    by_cases h : e.1 = k
    · simpa [mdel, h] using ih
    · simpa [mdel, List.filter_cons, h, mget] using ih

/-- The ambient mutable tables of src/index.js lines 24-25 and the
`openai.js` module-level `apiKey`. -/
structure ServerState where
  sessions : List (String × Session) := []
  pendingPatches : List (String × PendingPatch) := []
  apiKey : Option String := none
deriving DecidableEq

/-- External collaborators of `handleCommand`: the OS file API, the
chat-completion service and ambient values, threaded through an abstract
world `W` so that "no file was created or modified" is expressible as the
world being returned unchanged.  A JavaScript exception is `Except.error`
carrying `e.message`. -/
structure Env (W : Type) where
  readFile : W → Option String → Except String String
  writeFile : W → Option String → Option String → Except String W
  readdir : W → String → Except String (List String)
  readdirTypes : W → String → Except String (List (String × Bool))
  mkdir : W → Option String → Except String W
  unlink : W → Option String → Except String W
  rm : W → Option String → Bool → Except String W
  statIsDir : W → Option String → Except String Bool
  rename : W → Option String → Option String → Except String W
  chat : List ChatMsg → Except String String
  readProject : W → String → Except String String
  freshId : String
  now : Nat

/-- The context-selection step of the `aiChat` handler (src/index.js lines
174-180): rebuild (and overwrite the session) when `newSession` is truthy
or no session exists for the project path; otherwise reuse the cached
`filesText` verbatim.  A `readProjectFiles` failure propagates as the
thrown exception, leaving the session table untouched. -/
def aiChatContext {W : Type} (env : Env W) (w : W) (ss : List (String × Session))
    (projectPath : String) (newSession : Bool) :
    Except String String × List (String × Session) :=
  if newSession || (mget ss projectPath).isNone then
    match env.readProject w projectPath with
    | .error e => (.error e, ss)
    | .ok ctx => (.ok ctx, mset ss projectPath ⟨ctx, env.now⟩)
  else
    match mget ss projectPath with
    | some s => (.ok s.filesText, ss)
    | none => (.ok "", ss)

/-- First index at which `pat` occurs as a contiguous sublist of `hay`. -/
def findSub : List Char → List Char → Option Nat
  | [], pat => if pat = [] then some 0 else none
  | h :: t, pat =>
    if (h :: t).take pat.length = pat then some 0
    else (findSub t pat).map (· + 1)

/-- The patch-block detector `reply.match(/```patch[\s\S]*?\n([\s\S]*?)```/)`
(src/index.js lines 189-190): from the first occurrence of the literal
"```patch", lazily up to the first newline, then the capture lazily up to
the next "```".  First-occurrence search is equivalent to the regex with
backtracking here, because a newline or fence reachable from a later
starting point is reachable from the earlier one too. -/
def detectPatch (reply : String) : Option String :=
  let cs := reply.toList
  match findSub cs ("```patch".toList) with
  | none => none
  | some i =>
    let after := cs.drop (i + 8)
    match findSub after ['\n'] with
    | none => none
    | some j =>
      let body := after.drop (j + 1)
      match findSub body ("```".toList) with
      | none => none
      | some k => some (String.mk (body.take k))

/-- The system prompt prefixed to the conversation (src/index.js line 182). -/
def systemPrompt (ctx : String) : String :=
  "You are an AI assistant helping with the following project. The full codebase is provided below. Always ask for approval before applying code changes.\n\n" ++ ctx

/-- The `aiApprove` handler body (src/index.js lines 208-219): an unknown
(or absent) `patchId` fails; `apply` truthy fails with the unimplemented
marker leaving the entry in place; otherwise the entry is discarded. -/
def aiApprove (pp : List (String × PendingPatch)) (patchId : Option String)
    (apply : Bool) : Resp × List (String × PendingPatch) :=
  match patchId with
  | none => (⟨false, some (.str "Unknown patchId"), false⟩, pp)
  | some pid =>
    match mget pp pid with
    | none => (⟨false, some (.str "Unknown patchId"), false⟩, pp)
    | some _ =>
      if apply then (⟨false, some (.str "Auto-apply not implemented yet"), false⟩, pp)
      else (⟨true, some (.str "Patch discarded"), false⟩, mdel pp pid)

def unknownResp (cmd : String) : Resp :=
  ⟨false, some (.str ("Unknown command " ++ cmd)), false⟩

/-- The body of `handleCommand`'s `switch` (src/index.js lines 112-222),
with the `try` block's result as `Except`: `.error e` is a thrown
exception reaching the `catch`.  World and state mutations performed
before a throw persist.  The `exec` case's `spawn` side effect (stream
events) is modelled by the connection machine below; here `exec` yields
its immediate acknowledgment. -/
def handleBody {W : Type} (env : Env W) (w : W) (st : ServerState) (req : Request) :
    W × ServerState × Except String Resp :=
  match req.cmd with
  | "readFile" =>
    match env.readFile w req.args.path with
    | .error e => (w, st, .error e)
    | .ok d => (w, st, .ok ⟨true, some (.str d), false⟩)
  | "writeFile" =>
    match env.writeFile w req.args.path req.args.data with
    | .error e => (w, st, .error e)
    | .ok w' => (w', st, .ok ⟨true, none, false⟩)
  | "listDir" =>
    match env.readdir w (req.args.path.getD ".") with
    | .error e => (w, st, .error e)
    | .ok es => (w, st, .ok ⟨true, some (.strs es), false⟩)
  | "listDirs" =>
    match env.readdirTypes w (req.args.path.getD ".") with
    | .error e => (w, st, .error e)
    | .ok all => (w, st, .ok ⟨true, some (.strs ((all.filter (·.2)).map (·.1))), false⟩)
  | "createDir" =>
    match env.mkdir w req.args.path with
    | .error e => (w, st, .error e)
    | .ok w' => (w', st, .ok ⟨true, none, false⟩)
  | "deleteFile" =>
    match env.unlink w req.args.path with
    | .error e => (w, st, .error e)
    | .ok w' => (w', st, .ok ⟨true, none, false⟩)
  | "deleteDir" =>
    match env.rm w req.args.path req.args.recursive with
    | .error e => (w, st, .error e)
    | .ok w' => (w', st, .ok ⟨true, none, false⟩)
  | "isDir" =>
    match env.statIsDir w req.args.path with
    | .error e => (w, st, .error e)
    | .ok b => (w, st, .ok ⟨true, some (.bool b), false⟩)
  | "rename" =>
    match env.rename w req.args.oldPath req.args.newPath with
    | .error e => (w, st, .error e)
    | .ok w' => (w', st, .ok ⟨true, none, false⟩)
  | "exec" =>
    match req.args.command with
    | none => (w, st, .ok ⟨false, some (.str "No command provided"), false⟩)
    | some c =>
      if c = "" then (w, st, .ok ⟨false, some (.str "No command provided"), false⟩)
      else (w, st, .ok ⟨true, none, true⟩)
  | "aiChat" =>
    match req.args.projectPath with
    | none => (w, st, .ok ⟨false, some (.str "projectPath is required"), false⟩)
    | some pp =>
      if pp = "" then (w, st, .ok ⟨false, some (.str "projectPath is required"), false⟩)
      else
        match aiChatContext env w st.sessions pp req.args.newSession with
        | (.error e, ss') => (w, { st with sessions := ss' }, .error e)
        | (.ok ctx, ss') =>
          let st1 := { st with sessions := ss' }
          let fullMessages := ⟨"system", systemPrompt ctx⟩ :: req.args.messages
          match env.chat fullMessages with
          | .error e => (w, st1, .error e)
          | .ok reply =>
            match detectPatch reply with
            | none => (w, st1, .ok ⟨true, some (.chatReply reply none), false⟩)
            | some diff =>
              let pid := env.freshId
              (w, { st1 with pendingPatches := mset st1.pendingPatches pid ⟨pp, diff⟩ },
                .ok ⟨true, some (.chatReply reply (some (pid, diff))), false⟩)
  | "setApiKey" =>
    match req.args.key with
    | none => (w, st, .ok ⟨false, some (.str "key is required"), false⟩)
    | some k =>
      if k = "" then (w, st, .ok ⟨false, some (.str "key is required"), false⟩)
      else (w, { st with apiKey := some k }, .ok ⟨true, some (.keyStatus true), false⟩)
  | "aiStatus" =>
    (w, st, .ok ⟨true, some (.keyStatus st.apiKey.isSome), false⟩)
  | "aiApprove" =>
    let r := aiApprove st.pendingPatches req.args.patchId req.args.apply
    (w, { st with pendingPatches := r.2 }, .ok r.1)
  | _ => (w, st, .ok (unknownResp req.cmd))

/-- `handleCommand` (src/index.js lines 109-226): the `try`/`catch`
converting any thrown error into `{ ok: false, data: e.message }`. -/
def handleCommandR {W : Type} (env : Env W) (w : W) (st : ServerState)
    (req : Request) : W × ServerState × Resp :=
  match handleBody env w st req with
  | (w', st', .ok r) => (w', st', r)
  | (w', st', .error e) => (w', st', ⟨false, some (.str e), false⟩)

/-- The commands of the `switch` (src/index.js lines 112-219 and §6 of the
spec). -/
def knownCmds : List String :=
  ["readFile", "writeFile", "listDir", "listDirs", "createDir", "deleteFile",
   "deleteDir", "isDir", "rename", "exec", "aiChat", "setApiKey", "aiStatus",
   "aiApprove"]

/-! ## The connection machine (src/index.js lines 150-169 and 232-263)

`onClient` registers an `async` `data` listener on the socket.  For each
inbound chunk, Node runs that listener synchronously up to its first
suspension point — the `await handleCommand(req, socket)` — and the
listener's continuation (stamping `resp.id` and writing the response, then
re-entering the `while` loop) resumes when the handler's promise settles.
The machine below is that event-loop semantics made explicit:

* a *schedule* is the sequence of external events the event loop serves:
  `chunk` (a `data` event), `resume i` (the pending I/O of the `i`-th
  suspended listener iteration settles), `procStep i` (the OS delivers the
  next pending stdout/stderr chunk — or, once those are drained, the
  `close` event — of the `i`-th spawned child);
* commands whose handler body contains no `await` before returning
  (`exec`, `aiApprove`, `setApiKey`, `aiStatus`, unknown commands) resolve
  immediately: their continuation is a microtask, and microtasks drain
  before the event loop serves any further I/O or `data` macrotask, so the
  machine performs the response write and loop continuation inside the
  same step — in particular an `exec` acknowledgment is written before the
  event loop can deliver any output of the child just spawned;
* commands that `await` real I/O (the `fs` commands and `aiChat`) suspend:
  their eventual handler value is given by the environment up front
  (`result`), and the schedule chooses when it settles (`resume`);
* `socket.write` appends a message to the trace; after `socket.end` (the
  malformed-JSON path) the connection is closed and every later event is a
  no-op (writes after `end` fail and deliver nothing);
* the shared mutable `buffer` is machine state: concurrently suspended
  listener iterations observe each other's buffer consumption, exactly as
  the closure variable in the source does.

Handler *bodies* are abstracted by `MEnv.result` (their semantics is the
subject of `handleBody` above); the machine models framing, dispatch shape
and scheduling.  The `src` fields on written messages are ghost
provenance — which spawned child an acknowledgment or stream event belongs
to — carried for specification only; the wire payload is the message
without it. -/

inductive StreamEv where
  | stdout (d : String)
  | stderr (d : String)
  | exit (code : Int)
deriving DecidableEq

/-- The observable behavior of one spawned child process: its stdout (`false`)
and stderr (`true`) chunks in the order produced, and its exit code. -/
structure ProcSpec where
  outs : List (Bool × String)
  exitCode : Int
deriving DecidableEq

def mkOutEv : Bool × String → StreamEv
  | (false, d) => .stdout d
  | (true, d) => .stderr d

/-- One message written to the socket.  `invalid` is
`encode({id: null, ok: false, data: 'Invalid JSON'})`, the frame written by
`socket.end` on a JSON decode failure (src/index.js line 251). -/
inductive OutMsg where
  | resp (src : Option Nat) (id : Option Nat) (r : Resp)
  | ev (src : Nat) (id : Option Nat) (e : StreamEv)
  | invalid
deriving DecidableEq

inductive TraceEv where
  | invoke (req : Request)
  | write (m : OutMsg)
deriving DecidableEq

/-- A spawned child: the id of the spawning request (`execId`), its
behavior, how many output chunks have been delivered, and whether the
`close` event has fired. -/
structure Proc where
  reqId : Option Nat
  spec : ProcSpec
  consumed : Nat
  exited : Bool
deriving DecidableEq

/-- A suspended listener iteration: the request whose `handleCommand`
promise is pending, and the value it will settle with. -/
structure Task where
  req : Request
  resp : Resp
deriving DecidableEq

structure MState where
  buffer : List Nat
  closed : Bool
  procs : List Proc
  trace : List TraceEv
  tasks : List (Option Task)
deriving DecidableEq

/-- The machine environment: the JSON parser, the eventual `handleCommand`
value per request, and the child behavior an `exec` spawn produces. -/
structure MEnv where
  parse : List Nat → Option Request
  result : Request → Resp
  proc : Request → ProcSpec

/-- The `exec` acknowledgment `{ ok: true, started: true }`
(src/index.js line 169). -/
def execAck : Resp := ⟨true, none, true⟩

def noCommandResp : Resp := ⟨false, some (.str "No command provided"), false⟩

/-- How a request's handler behaves from the event loop's point of view. -/
inductive Disp where
  | immediate (r : Resp)
  | blocked (r : Resp)
  | spawned (r : Resp) (p : ProcSpec)

/-- The commands whose handler `await`s real I/O before returning. -/
def blockingCmds : List String :=
  ["readFile", "writeFile", "listDir", "listDirs", "createDir", "deleteFile",
   "deleteDir", "isDir", "rename", "aiChat"]

def dispatch (env : MEnv) (req : Request) : Disp :=
  if req.cmd = "exec" then
    match req.args.command with
    | none => .immediate noCommandResp
    | some c =>
      if c = "" then .immediate noCommandResp
      else .spawned execAck (env.proc req)
  else if blockingCmds.contains req.cmd then .blocked (env.result req)
  else .immediate (env.result req)

inductive SchedEv where
  | chunk (data : List Nat)
  | resume (slot : Nat)
  | procStep (pidx : Nat)
deriving DecidableEq

/-- The listener's `while` loop from its current re-entry point: extract
the next complete frame; on JSON failure write the fatal response and
close; otherwise record the `handleCommand` invocation and either write
the response and continue (immediate), spawn the child, write the
acknowledgment and continue, or suspend returning the pending task.
As in `processBufferFuel`, the fuel only makes the recursion structural
(each iteration consumes at least 4 buffered bytes). -/
def runLoop (env : MEnv) : Nat → MState → MState × Option Task
  | 0, st => (st, none)
  | fuel + 1, st =>
    if 4 ≤ st.buffer.length then
      let len := readU32 st.buffer
      if 4 + len ≤ st.buffer.length then
        let payload := (st.buffer.drop 4).take len
        let st1 := { st with buffer := st.buffer.drop (4 + len) }
        match env.parse payload with
        | none =>
          ({ st1 with trace := st1.trace ++ [.write .invalid], closed := true }, none)
        | some req =>
          let st2 := { st1 with trace := st1.trace ++ [.invoke req] }
          match dispatch env req with
          | .blocked resp => (st2, some ⟨req, resp⟩)
          | .immediate resp =>
            runLoop env fuel
              { st2 with trace := st2.trace ++ [.write (.resp none req.id resp)] }
          | .spawned resp p =>
            runLoop env fuel
              { st2 with
                procs := st2.procs ++ [⟨req.id, p, 0, false⟩],
                trace := st2.trace ++ [.write (.resp (some st2.procs.length) req.id resp)] }
      else (st, none)
    else (st, none)

/-- One event served by the event loop. -/
def step (env : MEnv) (st : MState) (ev : SchedEv) : MState :=
  if st.closed then st else
  match ev with
  | .chunk data =>
    let st1 := { st with buffer := st.buffer ++ data }
    let r := runLoop env (st1.buffer.length + 1) st1
    { r.1 with tasks := r.1.tasks ++ [r.2] }
  | .resume slot =>
    match st.tasks.getD slot none with
    | none => st
    | some t =>
      let st1 := { st with
        trace := st.trace ++ [.write (.resp none t.req.id t.resp)],
        tasks := st.tasks.set slot none }
      let r := runLoop env (st1.buffer.length + 1) st1
      { r.1 with tasks := r.1.tasks.set slot r.2 }
  | .procStep pidx =>
    match st.procs[pidx]? with
    | none => st
    | some p =>
      if p.consumed < p.spec.outs.length then
        { st with
          procs := st.procs.set pidx { p with consumed := p.consumed + 1 },
          trace := st.trace ++
            [.write (.ev pidx p.reqId (mkOutEv (p.spec.outs.getD p.consumed (false, ""))))] }
      else if p.exited then st
      else
        { st with
          procs := st.procs.set pidx { p with exited := true },
          trace := st.trace ++ [.write (.ev pidx p.reqId (.exit p.spec.exitCode))] }

def initState : MState := ⟨[], false, [], [], []⟩

/-- A run of one connection against a schedule of event-loop events. -/
def run (env : MEnv) (sched : List SchedEv) : MState :=
  sched.foldl (step env) initState

/-! ### Per-child message ordering (claim C2)

`procMsgs i tr` projects, from a trace, the messages belonging to the
`i`-th spawned child — its `exec` acknowledgment and its stream events —
in the order they were written to the socket, each with the request id it
carries on the wire. -/

def procMsgs (i : Nat) (tr : List TraceEv) : List (Option Nat × (Resp ⊕ StreamEv)) :=
  tr.filterMap fun te =>
    match te with
    | .write (.resp (some j) id r) => if j = i then some (id, .inl r) else none
    | .write (.ev j id e) => if j = i then some (id, .inr e) else none
    | _ => none

/-- The stream events a child in state `p` has had delivered so far:
its produced chunks in order, then — once the `close` event fired —
exactly one terminal exit event. -/
def procExpected (p : Proc) : List StreamEv :=
  (p.spec.outs.take p.consumed).map mkOutEv
    ++ (if p.exited then [.exit p.spec.exitCode] else [])

@[simp] theorem procMsgs_nil (i : Nat) : procMsgs i [] = [] := rfl

@[simp] theorem procMsgs_append (i : Nat) (a b : List TraceEv) :
    procMsgs i (a ++ b) = procMsgs i a ++ procMsgs i b :=
  List.filterMap_append a b _

@[simp] theorem procMsgs_cons_invoke (i : Nat) (req : Request) (tr : List TraceEv) :
    procMsgs i (.invoke req :: tr) = procMsgs i tr := rfl

@[simp] theorem procMsgs_cons_invalid (i : Nat) (tr : List TraceEv) :
    procMsgs i (.write .invalid :: tr) = procMsgs i tr := rfl

@[simp] theorem procMsgs_cons_resp_none (i : Nat) (id : Option Nat) (r : Resp)
    (tr : List TraceEv) :
    procMsgs i (.write (.resp none id r) :: tr) = procMsgs i tr := rfl

theorem procMsgs_cons_resp_some (i j : Nat) (id : Option Nat) (r : Resp)
    (tr : List TraceEv) :
    procMsgs i (.write (.resp (some j) id r) :: tr)
      = (if j = i then [(id, .inl r)] else []) ++ procMsgs i tr := by
  by_cases h : j = i <;> simp [procMsgs, List.filterMap_cons, h]

theorem procMsgs_cons_ev (i j : Nat) (id : Option Nat) (e : StreamEv)
    (tr : List TraceEv) :
    procMsgs i (.write (.ev j id e) :: tr)
      = (if j = i then [(id, .inr e)] else []) ++ procMsgs i tr := by
  by_cases h : j = i <;> simp [procMsgs, List.filterMap_cons, h]

/-- Only `exec` with a command spawns, and its acknowledgment is
`{ ok: true, started: true }`. -/
theorem dispatch_spawned_ack (env : MEnv) (req : Request) (r : Resp) (p : ProcSpec)
    (h : dispatch env req = .spawned r p) : r = execAck := by
  unfold dispatch at h
  split at h
  · split at h
    · cases h
    · split at h
      · cases h
      · cases h; rfl
  · split at h
    · cases h
    · cases h

/-- The per-child invariant: every spawned child's projected messages are
exactly its acknowledgment followed by its delivered events in production
order, all carrying the spawning request's id; delivery never runs ahead
of the produced output, and the exit event fires only after the output is
drained. -/
def ProcInv (st : MState) : Prop :=
  (∀ i p, st.procs[i]? = some p →
      procMsgs i st.trace
        = (p.reqId, .inl execAck) :: (procExpected p).map (fun e => (p.reqId, .inr e))
      ∧ p.consumed ≤ p.spec.outs.length
      ∧ (p.exited = true → p.consumed = p.spec.outs.length))
  ∧ (∀ i, st.procs.length ≤ i → procMsgs i st.trace = [])

theorem runLoop_procInv (env : MEnv) (fuel : Nat) :
    ∀ st : MState, ProcInv st → ProcInv (runLoop env fuel st).1 := by
  induction fuel with
  | zero => intro st h; simpa [runLoop] using h
  | succ fuel ih =>
    intro st h
    obtain ⟨h1, h2⟩ := h
    simp only [runLoop]
    split
    · split
      · split
        · -- JSON parse failure: fatal response, no child messages added
          exact ⟨fun i p hp => by simpa using h1 i p hp, fun i hi => by simpa using h2 i hi⟩
        · rename_i req hparse
          split
          · -- blocked: only the invocation is recorded
            exact ⟨fun i p hp => by simpa using h1 i p hp, fun i hi => by simpa using h2 i hi⟩
          · -- immediate: invocation and an unsourced response
            apply ih
            exact ⟨fun i p hp => by simpa using h1 i p hp, fun i hi => by simpa using h2 i hi⟩
          · -- spawned: a fresh child is appended and its ack written
            rename_i resp p hdisp
            have hack : resp = execAck := dispatch_spawned_ack env req resp p hdisp
            subst hack
            apply ih
            constructor
            · intro i q hq
              rcases Nat.lt_trichotomy i st.procs.length with hlt | heqi | hgt
              · rw [List.getElem?_append_left hlt] at hq
                have hold := h1 i q hq
                refine ⟨?_, hold.2.1, hold.2.2⟩
                simp only [procMsgs_append, procMsgs_cons_invoke,
                  procMsgs_cons_resp_some, if_neg (Nat.ne_of_gt hlt), procMsgs_nil,
                  List.nil_append, List.append_nil]
                exact hold.1
              · subst heqi
                rw [List.getElem?_concat_length] at hq
                cases hq
                refine ⟨?_, Nat.zero_le _, by simp⟩
                simp only [procMsgs_append, procMsgs_cons_invoke,
                  procMsgs_cons_resp_some, if_pos rfl, procMsgs_nil,
                  List.nil_append]
                rw [h2 _ le_rfl]
                simp [procExpected]
              · exfalso
                rw [List.getElem?_append_right (by omega)] at hq
                rcases hk : i - st.procs.length with _ | k
                · omega
                · rw [hk] at hq; simp at hq
            · intro i hi
              rw [List.length_append, List.length_singleton] at hi
              simp only [procMsgs_append, procMsgs_cons_invoke,
                procMsgs_cons_resp_some, if_neg (by omega : ¬st.procs.length = i),
                procMsgs_nil, List.nil_append, List.append_nil]
              exact h2 i (by omega)
      · exact ⟨h1, h2⟩
    · exact ⟨h1, h2⟩

theorem step_procInv (env : MEnv) (ev : SchedEv) (st : MState) (h : ProcInv st) :
    ProcInv (step env st ev) := by
  unfold step
  split
  · exact h
  · match ev with
    | .chunk data =>
      have hr := runLoop_procInv env ({ st with buffer := st.buffer ++ data }.buffer.length + 1)
        { st with buffer := st.buffer ++ data } ⟨h.1, h.2⟩
      exact ⟨hr.1, hr.2⟩
    | .resume slot =>
      rcases ht : st.tasks.getD slot none with _ | t
      · simp only [ht]
        exact h
      · simp only [ht]
        have h1 : ProcInv { st with
            trace := st.trace ++ [.write (.resp none t.req.id t.resp)],
            tasks := st.tasks.set slot none } :=
          ⟨fun i p hp => by simpa using h.1 i p hp, fun i hi => by simpa using h.2 i hi⟩
        have hr := runLoop_procInv env (st.buffer.length + 1)
          { st with
            trace := st.trace ++ [.write (.resp none t.req.id t.resp)],
            tasks := st.tasks.set slot none } h1
        exact ⟨hr.1, hr.2⟩
    | .procStep pidx =>
      rcases hp : st.procs[pidx]? with _ | p
      · simp only [hp]
        exact h
      · simp only [hp]
        have hplen : pidx < st.procs.length := by
          by_contra hc
          rw [List.getElem?_eq_none (by omega)] at hp
          cases hp
        have hold := h.1 pidx p hp
        by_cases hcons : p.consumed < p.spec.outs.length
        · rw [if_pos hcons]
          have hex : p.exited = false := by
            rcases he : p.exited with _ | _
            · rfl
            · exact absurd (hold.2.2 he) (by omega)
          constructor
          · intro i q hq
            by_cases hip : i = pidx
            · subst hip
              rw [List.getElem?_set_self hplen] at hq
              cases hq
              refine ⟨?_, by simpa using hcons, by simp [hex]⟩
              simp only [procMsgs_append, procMsgs_cons_ev, if_pos rfl, procMsgs_nil,
                List.append_nil]
              rw [hold.1]
              have hgetd : p.spec.outs.getD p.consumed (false, "")
                  = p.spec.outs[p.consumed] := List.getD_eq_getElem _ _ hcons
              have hpe : procExpected p = (p.spec.outs.take p.consumed).map mkOutEv := by
                simp [procExpected, hex]
              have hpe' : procExpected { p with consumed := p.consumed + 1 }
                  = (p.spec.outs.take p.consumed).map mkOutEv
                    ++ [mkOutEv p.spec.outs[p.consumed]] := by
                have htake : p.spec.outs.take (p.consumed + 1)
                    = p.spec.outs.take p.consumed ++ [p.spec.outs[p.consumed]] := by
                  rw [List.take_succ, List.getElem?_eq_getElem hcons]
                  rfl
                show (p.spec.outs.take (p.consumed + 1)).map mkOutEv
                    ++ (if p.exited then [.exit p.spec.exitCode] else []) = _
                rw [hex, htake, List.map_append]
                simp
              rw [hpe, hpe', hgetd, List.cons_append]
              simp
            · rw [List.getElem?_set_ne (by omega : pidx ≠ i)] at hq
              have holdi := h.1 i q hq
              refine ⟨?_, holdi.2.1, holdi.2.2⟩
              simp only [procMsgs_append, procMsgs_cons_ev,
                if_neg (by omega : ¬pidx = i), procMsgs_nil, List.append_nil,
                List.nil_append]
              exact holdi.1
          · intro i hi
            rw [List.length_set] at hi
            simp only [procMsgs_append, procMsgs_cons_ev,
              if_neg (by omega : ¬pidx = i), procMsgs_nil, List.append_nil,
              List.nil_append]
            exact h.2 i hi
        · rw [if_neg hcons]
          by_cases he : p.exited = true
          · rw [if_pos he]
            exact h
          · rw [if_neg he]
            have hex : p.exited = false := by
              rcases hb : p.exited with _ | _
              · rfl
              · exact absurd hb he
            have hcl : p.consumed = p.spec.outs.length := by
              have := hold.2.1
              omega
            constructor
            · intro i q hq
              by_cases hip : i = pidx
              · subst hip
                rw [List.getElem?_set_self hplen] at hq
                cases hq
                refine ⟨?_, by simpa using hold.2.1, fun _ => by simpa using hcl⟩
                simp only [procMsgs_append, procMsgs_cons_ev, if_pos rfl, procMsgs_nil,
                  List.append_nil]
                rw [hold.1]
                have hpe : procExpected p = (p.spec.outs.take p.consumed).map mkOutEv := by
                  simp [procExpected, hex]
                have hpe' : procExpected { p with exited := true }
                    = (p.spec.outs.take p.consumed).map mkOutEv
                      ++ [.exit p.spec.exitCode] := by
                  simp [procExpected]
                rw [hpe, hpe', List.cons_append]
                simp
              · rw [List.getElem?_set_ne (by omega : pidx ≠ i)] at hq
                have holdi := h.1 i q hq
                refine ⟨?_, holdi.2.1, holdi.2.2⟩
                simp only [procMsgs_append, procMsgs_cons_ev,
                  if_neg (by omega : ¬pidx = i), procMsgs_nil, List.append_nil,
                  List.nil_append]
                exact holdi.1
            · intro i hi
              rw [List.length_set] at hi
              simp only [procMsgs_append, procMsgs_cons_ev,
                if_neg (by omega : ¬pidx = i), procMsgs_nil, List.append_nil,
                List.nil_append]
              exact h.2 i hi

theorem run_procInv (env : MEnv) (sched : List SchedEv) : ProcInv (run env sched) := by
  have hgen : ∀ (evs : List SchedEv) (st : MState), ProcInv st →
      ProcInv (evs.foldl (step env) st) := by
    intro evs
    induction evs with
    | nil => intro st h; exact h
    | cons e rest ih =>
      intro st h
      exact ih _ (step_procInv env e st h)
  exact hgen sched initState ⟨fun i p hp => by simp [initState] at hp, fun i _ => rfl⟩

/-! ### Connection closure on malformed JSON (claim C6) -/

/-- The closure invariant: the connection is closed exactly when the fatal
`{id: null, ok: false, data: 'Invalid JSON'}` frame has been written, that
frame is written at most once, and nothing follows it. -/
def CloseInv (st : MState) : Prop :=
  (st.closed = false → (.write .invalid : TraceEv) ∉ st.trace)
  ∧ (st.closed = true → ∃ pre, st.trace = pre ++ [.write .invalid]
      ∧ (.write .invalid : TraceEv) ∉ pre)

theorem runLoop_closeInv (env : MEnv) (fuel : Nat) :
    ∀ st : MState, st.closed = false → (.write .invalid : TraceEv) ∉ st.trace →
      CloseInv (runLoop env fuel st).1 := by
  induction fuel with
  | zero =>
    intro st hcl hnm
    exact ⟨fun _ => hnm, fun hc => absurd hc (by simp [runLoop, hcl])⟩
  | succ fuel ih =>
    intro st hcl hnm
    simp only [runLoop]
    split
    · split
      · split
        · -- parse failure: the fatal frame is the last write and the socket closes
          exact ⟨fun hc => by simp at hc, fun _ => ⟨st.trace, rfl, hnm⟩⟩
        · split
          · -- blocked: suspension, no fatal frame
            refine ⟨fun _ => ?_, fun hc => absurd hc (by simp [hcl])⟩
            intro hin
            rcases List.mem_append.mp hin with h1 | h1
            · exact hnm h1
            · simp at h1
          · -- immediate
            apply ih
            · exact hcl
            · intro hin
              rcases List.mem_append.mp hin with h1 | h1
              · rcases List.mem_append.mp h1 with h2 | h2
                · exact hnm h2
                · simp at h2
              · simp at h1
          · -- spawned
            apply ih
            · exact hcl
            · intro hin
              rcases List.mem_append.mp hin with h1 | h1
              · rcases List.mem_append.mp h1 with h2 | h2
                · exact hnm h2
                · simp at h2
              · simp at h1
      · exact ⟨fun _ => hnm, fun hc => absurd hc (by simp [hcl])⟩
    · exact ⟨fun _ => hnm, fun hc => absurd hc (by simp [hcl])⟩

theorem step_closeInv (env : MEnv) (ev : SchedEv) (st : MState) (h : CloseInv st) :
    CloseInv (step env st ev) := by
  unfold step
  split
  · exact h
  · rename_i hncl
    have hcl : st.closed = false := by
      rcases hc : st.closed with _ | _
      · rfl
      · exact absurd hc hncl
    have hnm : (.write .invalid : TraceEv) ∉ st.trace := h.1 hcl
    match ev with
    | .chunk data =>
      have hr := runLoop_closeInv env ({ st with buffer := st.buffer ++ data }.buffer.length + 1)
        { st with buffer := st.buffer ++ data } hcl hnm
      exact ⟨hr.1, hr.2⟩
    | .resume slot =>
      rcases ht : st.tasks.getD slot none with _ | t
      · simp only [ht]
        exact h
      · simp only [ht]
        have hr := runLoop_closeInv env (st.buffer.length + 1)
          { st with
            trace := st.trace ++ [.write (.resp none t.req.id t.resp)],
            tasks := st.tasks.set slot none } hcl ?_
        · exact ⟨hr.1, hr.2⟩
        · intro hin
          rcases List.mem_append.mp hin with h1 | h1
          · exact hnm h1
          · simp at h1
    | .procStep pidx =>
      rcases hp : st.procs[pidx]? with _ | p
      · simp only [hp]
        exact h
      · simp only [hp]
        split
        · refine ⟨fun _ => ?_, fun hc => absurd hc (by simp [hcl])⟩
          intro hin
          rcases List.mem_append.mp hin with h1 | h1
          · exact hnm h1
          · simp at h1
        · split
          · exact h
          · refine ⟨fun _ => ?_, fun hc => absurd hc (by simp [hcl])⟩
            intro hin
            rcases List.mem_append.mp hin with h1 | h1
            · exact hnm h1
            · simp at h1

theorem run_closeInv (env : MEnv) (sched : List SchedEv) : CloseInv (run env sched) := by
  have hgen : ∀ (evs : List SchedEv) (st : MState), CloseInv st →
      CloseInv (evs.foldl (step env) st) := by
    intro evs
    induction evs with
    | nil => intro st h; exact h
    | cons e rest ih =>
      intro st h
      exact ih _ (step_closeInv env e st h)
  exact hgen sched initState ⟨fun _ => by simp [initState], fun hc => by simp [initState] at hc⟩

/-- The `exec{command:"echo hi"}` scenario: one frame decoding to the exec
request; the child produces one stdout chunk "hi\n" and exits with 0. -/
def echoReq : Request := ⟨some 1, "exec", { command := some "echo hi" }⟩

def echoEnv : MEnv :=
  ⟨fun _ => some echoReq, fun _ => ⟨true, none, false⟩, fun _ => ⟨[(false, "hi\n")], 0⟩⟩

def echoSched : List SchedEv := [.chunk (encodeFrame []), .procStep 0, .procStep 0]

end VCCE

namespace VCCE

/-- **C1.** For every valid frame, splitting its bytes across TCP writes at
any byte offsets makes the connection buffer yield the same decoded request
as delivering it in one unsplit write (the yielded payload lists, hence
their decodings under any decoder, coincide); and for every byte stream
containing N complete frames delivered in one chunk, all N requests are
yielded before any more input is required (the buffer is left empty). -/
theorem claim_C1_frame_split_and_burst
    (payload : List Nat) (hlen : payload.length < 2 ^ 32)
    (chunks : List (List Nat)) (hsplit : chunks.flatten = encodeFrame payload)
    (ps : List (List Nat)) (hps : ∀ p ∈ ps, p.length < 2 ^ 32)
    {Req : Type} (dec : List Nat → Option Req) :
    feedChunks chunks = ([payload], [])
    ∧ feedChunks [encodeFrame payload] = ([payload], [])
    ∧ (feedChunks chunks).1.map dec = (feedChunks [encodeFrame payload]).1.map dec
    ∧ processBuffer (ps.map encodeFrame).flatten = (ps, []) := by
  have hone : processBuffer (encodeFrame payload) = ([payload], []) := by
    have h := processBuffer_encodeFrame payload [] hlen
    simpa [processBuffer_nil] using h
  have h1 : feedChunks chunks = ([payload], []) := by
    rw [feedChunks_flatten, hsplit, hone]
  have h2 : feedChunks [encodeFrame payload] = ([payload], []) := by
    rw [feedChunks_flatten]
    simpa [processBuffer_nil] using hone
  exact ⟨h1, h2, by rw [h1, h2], processBuffer_flatten ps hps⟩

/-- Witness for C1 at a concrete frame split across two writes, and a burst
of two coalesced frames. -/
theorem claim_C1_witness :
    feedChunks [[1, 0], [0, 0, 42]] = ([[42]], [])
    ∧ processBuffer ([[7], [8, 9]].map encodeFrame).flatten = ([[7], [8, 9]], []) := by
  have h := claim_C1_frame_split_and_burst [42] (by norm_num) [[1, 0], [0, 0, 42]]
    (by decide) [[7], [8, 9]] (by intro p hp; fin_cases hp <;> norm_num)
    (some : List Nat → Option (List Nat))
  exact ⟨h.1, h.2.2.2⟩

/-- **C9.** `encode(message)` produces a 4-byte unsigned little-endian
length prefix followed by the UTF-8 JSON serialization of the message, the
prefix always equals the byte length of the payload that follows it, and
decoding the frame (length slice + JSON parse) recovers the original
message, for every serialize/parse pair satisfying the JSON library's
round-trip contract. -/
theorem claim_C9_encode_roundtrip {M : Type} (serialize : M → List Nat)
    (parse : List Nat → Option M) (m : M)
    (hjson : parse (serialize m) = some m)
    (hlen : (serialize m).length < 2 ^ 32) :
    encodeFrame (serialize m) = u32le (serialize m).length ++ serialize m
    ∧ readU32 (encodeFrame (serialize m)) = (serialize m).length
    ∧ (encodeFrame (serialize m)).drop 4 = serialize m
    ∧ (encodeFrame (serialize m)).length = 4 + (serialize m).length
    ∧ decodeFrame parse (encodeFrame (serialize m)) = some m := by
  have hread : readU32 (encodeFrame (serialize m)) = (serialize m).length := by
    unfold encodeFrame
    exact readU32_u32le_append _ _ hlen
  have hdrop : (encodeFrame (serialize m)).drop 4 = serialize m := by
    unfold encodeFrame
    exact List.drop_left' rfl
  have hl : (encodeFrame (serialize m)).length = 4 + (serialize m).length := by
    simp [encodeFrame, u32le]
    omega
  refine ⟨rfl, hread, hdrop, hl, ?_⟩
  unfold decodeFrame
  rw [hl, hread, hdrop, hjson, if_pos rfl]

/-- Witness for C9 at a concrete one-byte message with the identity-like
serializer. -/
theorem claim_C9_witness :
    readU32 (encodeFrame [7]) = 1
    ∧ decodeFrame (fun l => match l with | [n] => some n | _ => none)
        (encodeFrame [7]) = some 7 := by
  have h := claim_C9_encode_roundtrip (fun n : Nat => [n])
    (fun l => match l with | [n] => some n | _ => none) 7 rfl (by norm_num)
  exact ⟨h.2.1, h.2.2.2.2⟩

/-- A concrete trivial environment over the unit world, for witnesses. -/
def trivEnv : Env Unit where
  readFile := fun _ _ => .error "ENOENT"
  writeFile := fun _ _ _ => .ok ()
  readdir := fun _ _ => .ok []
  readdirTypes := fun _ _ => .ok []
  mkdir := fun _ _ => .ok ()
  unlink := fun _ _ => .ok ()
  rm := fun _ _ _ => .ok ()
  statIsDir := fun _ _ => .ok false
  rename := fun _ _ _ => .ok ()
  chat := fun _ => .ok "hello"
  readProject := fun _ _ => .ok "CTX"
  freshId := "patch-1"
  now := 0

/-- **C4.**  For every project path, when the `aiChat` context selection
runs twice with the same `projectPath` and `newSession` unset, the
aggregated context text used in both calls is identical — even though the
second call may observe a different world (changed files on disk) — and
the second call leaves the session table unchanged; moreover when an entry
already exists and `newSession` is unset, the cached text is reused
verbatim with no rebuild (the table is returned untouched). -/
theorem claim_C4_cache_reuse {W : Type} (env : Env W) (w1 w2 : W)
    (ss : List (String × Session)) (p : String)
    (ctx1 : String) (ss1 : List (String × Session))
    (h1 : aiChatContext env w1 ss p false = (.ok ctx1, ss1)) :
    aiChatContext env w2 ss1 p false = (.ok ctx1, ss1)
    ∧ (∀ s, mget ss p = some s → aiChatContext env w1 ss p false = (.ok s.filesText, ss)) := by
  constructor
  · rcases hm : mget ss p with _ | s
    · -- no entry: the first call rebuilt and stored ctx1
      simp only [aiChatContext, hm, Option.isNone_none, Bool.or_true, if_pos rfl, ite_true] at h1
      rcases hr : env.readProject w1 p with e | ctx
      · rw [hr] at h1; cases h1
      · rw [hr] at h1
        have hctx : ctx = ctx1 := by cases h1; rfl
        have hss : ss1 = mset ss p ⟨ctx, env.now⟩ := by cases h1; rfl
        subst hctx
        simp only [aiChatContext, hss, mget_mset_self, Option.isNone_some, Bool.or_false]
        simp
    · -- entry present: the first call reused it, table unchanged
      simp only [aiChatContext, hm, Option.isNone_some, Bool.or_false, Bool.false_or,
        if_neg (by simp : ¬false = true)] at h1
      have hctx : s.filesText = ctx1 := by cases h1; rfl
      have hss : ss1 = ss := by cases h1; rfl
      subst hss
      simp only [aiChatContext, hm, Option.isNone_some, Bool.or_false, Bool.false_or,
        if_neg (by simp : ¬false = true)]
      rw [hctx]
  · intro s hs
    simp only [aiChatContext, hs, Option.isNone_some, Bool.or_false, Bool.false_or,
      if_neg (by simp : ¬false = true)]

/-- Witness for C4: empty cache, first call builds "CTX" and stores it, the
second call reuses it. -/
theorem claim_C4_witness :
    aiChatContext trivEnv () [("proj", ⟨"CTX", 0⟩)] "proj" false
      = (.ok "CTX", [("proj", ⟨"CTX", 0⟩)]) := by
  have h := claim_C4_cache_reuse trivEnv () () [] "proj" "CTX"
    [("proj", ⟨"CTX", 0⟩)] rfl
  exact h.1

/-- **C5.**  For every patch id present in the registry,
`aiApprove{patchId, apply:false}` removes the entry so that a subsequent
`aiApprove` with the same id fails with the unknown-patch error;
`aiApprove{patchId, apply:true}` returns the explicit "not implemented"
failure while leaving the world (no file created or modified) and the
whole server state unchanged; and `aiApprove` with an id not in the
registry fails with the unknown-patch error. -/
theorem claim_C5_aiApprove_lifecycle (st : List (String × PendingPatch))
    (pid : String) (entry : PendingPatch) (hin : mget st pid = some entry)
    (pid2 : String) (hout : mget st pid2 = none) :
    (aiApprove st (some pid) false).1 = ⟨true, some (.str "Patch discarded"), false⟩
    ∧ (aiApprove st (some pid) false).2 = mdel st pid
    ∧ (aiApprove ((aiApprove st (some pid) false).2) (some pid) false).1
        = ⟨false, some (.str "Unknown patchId"), false⟩
    ∧ (aiApprove ((aiApprove st (some pid) false).2) (some pid) true).1
        = ⟨false, some (.str "Unknown patchId"), false⟩
    ∧ (aiApprove st (some pid) true).1
        = ⟨false, some (.str "Auto-apply not implemented yet"), false⟩
    ∧ (aiApprove st (some pid) true).2 = st
    ∧ (∀ {W : Type} (env : Env W) (w : W) (ss : ServerState),
        ss.pendingPatches = st →
          handleCommandR env w ss
              { id := some 1, cmd := "aiApprove",
                args := { patchId := some pid, apply := true } }
            = (w, ss, ⟨false, some (.str "Auto-apply not implemented yet"), false⟩))
    ∧ (aiApprove st (some pid2) true).1 = ⟨false, some (.str "Unknown patchId"), false⟩
    ∧ (aiApprove st (some pid2) false).1 = ⟨false, some (.str "Unknown patchId"), false⟩ := by
  refine ⟨?_, ?_, ?_, ?_, ?_, ?_, ?_, ?_, ?_⟩
  · simp [aiApprove, hin]
  · simp [aiApprove, hin]
  · simp [aiApprove, hin, mget_mdel_self]
  · simp [aiApprove, hin, mget_mdel_self]
  · simp [aiApprove, hin]
  · simp [aiApprove, hin]
  · intro W env w ss hss
    have hpp : aiApprove ss.pendingPatches (some pid) true
        = (⟨false, some (.str "Auto-apply not implemented yet"), false⟩, ss.pendingPatches) := by
      rw [hss]; simp [aiApprove, hin]
    unfold handleCommandR handleBody
    simp only [hpp]
  · simp [aiApprove, hout]
  · simp [aiApprove, hout]

/-- Witness for C5 at a concrete one-entry registry. -/
theorem claim_C5_witness :
    (aiApprove [("p1", ⟨"proj", "d"⟩)] (some "p1") false).2 = []
    ∧ (aiApprove [] (some "p1") false).1
        = ⟨false, some (.str "Unknown patchId"), false⟩
    ∧ handleCommandR trivEnv () ⟨[], [("p1", ⟨"proj", "d"⟩)], none⟩
        { id := some 1, cmd := "aiApprove", args := { patchId := some "p1", apply := true } }
      = ((), ⟨[], [("p1", ⟨"proj", "d"⟩)], none⟩,
          ⟨false, some (.str "Auto-apply not implemented yet"), false⟩) := by
  have h := claim_C5_aiApprove_lifecycle [("p1", ⟨"proj", "d"⟩)] "p1" ⟨"proj", "d"⟩
    rfl "p2" rfl
  refine ⟨?_, ?_, ?_⟩
  · rw [h.2.1]; rfl
  · exact h.2.2.2.2.2.2.2.2
  · exact h.2.2.2.2.2.2.1 trivEnv () ⟨[], [("p1", ⟨"proj", "d"⟩)], none⟩ rfl

/-- **C10.**  A failed `aiApprove{patchId, apply:true}` leaves the registry
entry unchanged: the same patch id is still present afterwards, and a later
`aiApprove{patchId, apply:false}` still succeeds and removes it. -/
theorem claim_C10_failed_apply_preserves_entry (st : List (String × PendingPatch))
    (pid : String) (entry : PendingPatch) (hin : mget st pid = some entry) :
    (aiApprove st (some pid) true).1
        = ⟨false, some (.str "Auto-apply not implemented yet"), false⟩
    ∧ (aiApprove st (some pid) true).2 = st
    ∧ mget ((aiApprove st (some pid) true).2) pid = some entry
    ∧ (aiApprove ((aiApprove st (some pid) true).2) (some pid) false).1
        = ⟨true, some (.str "Patch discarded"), false⟩
    ∧ mget ((aiApprove ((aiApprove st (some pid) true).2) (some pid) false).2) pid
        = none := by
  have h2 : (aiApprove st (some pid) true).2 = st := by simp [aiApprove, hin]
  refine ⟨by simp [aiApprove, hin], h2, by rw [h2]; exact hin, ?_, ?_⟩
  · rw [h2]; simp [aiApprove, hin]
  · rw [h2]; simp [aiApprove, hin, mget_mdel_self]

/-- Witness for C10 at a concrete one-entry registry. -/
theorem claim_C10_witness :
    (aiApprove [("q", ⟨"pp", "dd"⟩)] (some "q") true).2 = [("q", ⟨"pp", "dd"⟩)]
    ∧ mget ((aiApprove ((aiApprove [("q", ⟨"pp", "dd"⟩)] (some "q") true).2)
        (some "q") false).2) "q" = none := by
  have h := claim_C10_failed_apply_preserves_entry [("q", ⟨"pp", "dd"⟩)] "q"
    ⟨"pp", "dd"⟩ rfl
  exact ⟨h.2.1, h.2.2.2.2⟩

/-- **C7.**  A decoded request whose `cmd` is not in the handler table gets
a response with `ok:false`, a descriptive message and the request's own id,
without any other effect; and whenever the handler body throws, the error
is caught and converted to `{ok:false, data: e.message}` with the
request's id, the connection never being faulted (the dispatcher always
returns a response value). -/
theorem claim_C7_unknown_cmd_and_catch {W : Type} (env : Env W) (w : W)
    (st : ServerState) (req : Request) (e : String) :
    (req.cmd ∉ knownCmds →
      handleCommandR env w st req = (w, st, unknownResp req.cmd)
      ∧ (unknownResp req.cmd).ok = false
      ∧ (finalizeResp req (handleCommandR env w st req).2.2).id = req.id)
    ∧ ((handleBody env w st req).2.2 = .error e →
      (handleCommandR env w st req).2.2 = ⟨false, some (.str e), false⟩
      ∧ (handleCommandR env w st req).1 = (handleBody env w st req).1
      ∧ (handleCommandR env w st req).2.1 = (handleBody env w st req).2.1
      ∧ (finalizeResp req (handleCommandR env w st req).2.2).id = req.id) := by
  constructor
  · intro hmem
    simp only [knownCmds, List.mem_cons, List.not_mem_nil, or_false, not_or] at hmem
    obtain ⟨n1, n2, n3, n4, n5, n6, n7, n8, n9, n10, n11, n12, n13, n14⟩ := hmem
    have hb : handleBody env w st req = (w, st, .ok (unknownResp req.cmd)) := by
      unfold handleBody
      split
      any_goals simp_all
    refine ⟨?_, rfl, rfl⟩
    unfold handleCommandR
    rw [hb]
  · intro herr
    have : handleCommandR env w st req
        = ((handleBody env w st req).1, (handleBody env w st req).2.1,
            ⟨false, some (.str e), false⟩) := by
      unfold handleCommandR
      rcases hb : handleBody env w st req with ⟨w', st', r⟩
      rw [hb] at herr
      simp at herr
      rw [herr]
    rw [this]
    exact ⟨rfl, rfl, rfl, rfl⟩

/-- Witness for C7: a concrete unknown command, and a concrete `readFile`
whose underlying read throws `ENOENT`. -/
theorem claim_C7_witness :
    handleCommandR trivEnv () ⟨[], [], none⟩ ⟨some 3, "frobnicate", {}⟩
      = ((), ⟨[], [], none⟩, unknownResp "frobnicate")
    ∧ (handleCommandR trivEnv () ⟨[], [], none⟩
        ⟨some 4, "readFile", { path := some "x" }⟩).2.2
      = ⟨false, some (.str "ENOENT"), false⟩ := by
  have h1 := (claim_C7_unknown_cmd_and_catch trivEnv () ⟨[], [], none⟩
    ⟨some 3, "frobnicate", {}⟩ "ENOENT").1 (by decide)
  have h2 := (claim_C7_unknown_cmd_and_catch trivEnv () ⟨[], [], none⟩
    ⟨some 4, "readFile", { path := some "x" }⟩ "ENOENT").2 rfl
  exact ⟨h1.1, h2.1⟩


/-- **C2.**  For every exec request with a command, along every event-loop
schedule: the acknowledgment `{ok:true, started:true}` is written to the
connection strictly before any stream event of the spawned child (it is the
head of the child's projected message sequence); the child's stdout/stderr
events are delivered in exactly the order the process produced them;
delivery never runs ahead of production, at most one terminal exit event
carrying the process exit code is emitted, it comes after all output
events, and no event of that child follows it; every one of these messages
carries the spawning request's id (per-id phrasing coincides with
per-child phrasing under the protocol's assumption that ids are unique per
in-flight call, §3 of the spec).  In particular, for
`exec{command:"echo hi"}` the connection carries, in order: the
acknowledgment, a stdout event containing "hi", then an exit event with
code 0. -/
theorem claim_C2_exec_stream_order (env : MEnv) (sched : List SchedEv)
    (i : Nat) (p : Proc) (hp : (run env sched).procs[i]? = some p) :
    procMsgs i (run env sched).trace
      = (p.reqId, .inl execAck)
          :: (procExpected p).map (fun e => (p.reqId, .inr e))
    ∧ p.consumed ≤ p.spec.outs.length
    ∧ (p.exited = true → p.consumed = p.spec.outs.length)
    ∧ (run echoEnv echoSched).trace
        = [.invoke echoReq,
           .write (.resp (some 0) (some 1) execAck),
           .write (.ev 0 (some 1) (.stdout "hi\n")),
           .write (.ev 0 (some 1) (.exit 0))] := by
  have h := (run_procInv env sched).1 i p hp
  exact ⟨h.1, h.2.1, h.2.2, by decide⟩

/-- Witness for C2 at the echo scenario: after the schedule delivers both
child events, the child's projected messages are exactly the
acknowledgment, the stdout event and the terminal exit. -/
theorem claim_C2_witness :
    (run echoEnv echoSched).procs[0]? = some ⟨some 1, ⟨[(false, "hi\n")], 0⟩, 1, true⟩
    ∧ procMsgs 0 (run echoEnv echoSched).trace
        = [(some 1, .inl execAck), (some 1, .inr (.stdout "hi\n")),
           (some 1, .inr (.exit 0))] := by
  have h := claim_C2_exec_stream_order echoEnv echoSched 0
    ⟨some 1, ⟨[(false, "hi\n")], 0⟩, 1, true⟩ (by decide)
  refine ⟨by decide, ?_⟩
  rw [h.1]
  rfl

/-- **C6.**  A frame whose payload fails JSON decoding makes the server
send exactly one `{id: null, ok: false, data: "Invalid JSON"}` message and
close the connection: the fatal frame occurs in the trace exactly when the
connection is closed, it occurs exactly once, it is the last thing on the
trace, and nothing is processed afterwards; conversely a connection on
which every frame decodes is never terminated (closure happens only
through the framing-level decode failure). -/
theorem claim_C6_invalid_json_closes (env : MEnv) (sched : List SchedEv) :
    ((run env sched).closed = true ↔
      (.write .invalid : TraceEv) ∈ (run env sched).trace)
    ∧ ((run env sched).closed = true →
        ∃ pre, (run env sched).trace = pre ++ [.write .invalid]
          ∧ (.write .invalid : TraceEv) ∉ pre) := by
  have h := run_closeInv env sched
  constructor
  · constructor
    · intro hc
      obtain ⟨pre, hpre, _⟩ := h.2 hc
      rw [hpre]
      simp
    · intro hm
      rcases hc : (run env sched).closed with _ | _
      · exact absurd hm (h.1 hc)
      · rfl
  · exact h.2

/-- A schedule whose single frame carries an unparsable payload. -/
def badEnv : MEnv := ⟨fun _ => none, fun _ => ⟨false, none, false⟩, fun _ => ⟨[], 0⟩⟩

/-- Witness for C6: the malformed frame produces exactly the fatal message,
last on the trace, with the connection closed. -/
theorem claim_C6_witness :
    (run badEnv [.chunk (encodeFrame [9])]).closed = true
    ∧ (∃ pre, (run badEnv [.chunk (encodeFrame [9])]).trace = pre ++ [.write .invalid]
        ∧ (.write .invalid : TraceEv) ∉ pre)
    ∧ (.write .invalid : TraceEv) ∈ (run badEnv [.chunk (encodeFrame [9])]).trace := by
  have h := claim_C6_invalid_json_closes badEnv [.chunk (encodeFrame [9])]
  have hc : (run badEnv [.chunk (encodeFrame [9])]).closed = true := by decide
  exact ⟨hc, h.2 hc, h.1.mp hc⟩

/-! ### Request/response sequencing (claim C8)

`seqScan` scans a trace checking the discipline "after a handler is
invoked, no further handler is invoked until that request's response has
been written" (stream events and the fatal frame are exempt, as §4.3
permits them to interleave).  It returns `none` on a violation, and
`some pending` — the id of the not-yet-answered invocation, if any — on a
compliant trace. -/
def seqScan : List TraceEv → Option (Option Nat) → Option (Option (Option Nat))
  | [], p => some p
  | .invoke req :: rest, none => seqScan rest (some req.id)
  | .invoke _ :: _, some _ => none
  | .write (.resp _ id _) :: rest, some j =>
    if id = j then seqScan rest none else none
  | .write (.resp _ _ _) :: rest, none => seqScan rest none
  | .write (.ev _ _ _) :: rest, p => seqScan rest p
  | .write .invalid :: rest, p => seqScan rest p

theorem seqScan_append (a b : List TraceEv) (p : Option (Option Nat)) :
    seqScan (a ++ b) p = (seqScan a p).bind (fun q => seqScan b q) := by
  induction a generalizing p with
  | nil => simp [seqScan]
  | cons te rest ih =>
    match te, p with
    | .invoke req, none => simpa [seqScan] using ih (some req.id)
    | .invoke req, some j => simp [seqScan]
    | .write (.resp src id r), some j =>
      by_cases hid : id = j
      · simpa [seqScan, hid] using ih none
      · simp [seqScan, hid]
    | .write (.resp src id r), none => simpa [seqScan] using ih none
    | .write (.ev src id e), p => simpa [seqScan] using ih p
    | .write .invalid, p => simpa [seqScan] using ih p

/-- Along the listener loop, the scanner goes from "no pending invocation"
to "the returned task's invocation pending, if any"; the loop does not
touch the task table or earlier children. -/
theorem runLoop_seqScan (env : MEnv) (fuel : Nat) :
    ∀ st : MState, seqScan st.trace none = some none →
      seqScan (runLoop env fuel st).1.trace none
        = some (((runLoop env fuel st).2).map (fun t => t.req.id))
      ∧ (runLoop env fuel st).1.tasks = st.tasks := by
  induction fuel with
  | zero =>
    intro st h
    simpa [runLoop] using h
  | succ fuel ih =>
    intro st h
    simp only [runLoop]
    split
    · split
      · split
        · -- parse failure: trace gains the fatal frame, scanner unaffected
          refine ⟨?_, rfl⟩
          rw [seqScan_append, h]
          rfl
        · rename_i req hparse
          split
          · -- blocked: the invocation is pending
            refine ⟨?_, rfl⟩
            rw [seqScan_append, h]
            rfl
          · -- immediate: invocation immediately answered
            apply ih
            rw [seqScan_append, seqScan_append, h]
            simp [seqScan]
          · -- spawned: invocation answered by the acknowledgment
            apply ih
            rw [seqScan_append, seqScan_append, h]
            simp [seqScan]
      · exact ⟨by simpa using h, rfl⟩
    · exact ⟨by simpa using h, rfl⟩

/-- All listener iterations have completed (no `await handleCommand` is
pending on the connection). -/
def allIdle (tasks : List (Option Task)) : Bool := tasks.all (fun t => t.isNone)

theorem allIdle_entry {ts : List (Option Task)} (h : allIdle ts = true) {j : Nat}
    {x : Option Task} (hj : ts[j]? = some x) : x = none := by
  have hm : x ∈ ts := List.getElem?_mem hj
  have := List.all_eq_true.mp h x hm
  simpa using this

/-- The sequencing invariant: when no iteration is suspended the trace is
fully sequenced; when one is, the trace is sequenced up to exactly that one
outstanding invocation, and it is the only suspended iteration. -/
def SeqInv (st : MState) : Prop :=
  (allIdle st.tasks = true → seqScan st.trace none = some none)
  ∧ (∀ (j : Nat) (t : Task), st.tasks[j]? = some (some t) →
      seqScan st.trace none = some (some t.req.id)
      ∧ ∀ (k : Nat) (u : Task), st.tasks[k]? = some (some u) → k = j)

theorem step_seqInv (env : MEnv) (ev : SchedEv) (st : MState) (h : SeqInv st)
    (hch : ∀ d, ev = .chunk d → allIdle st.tasks = true) :
    SeqInv (step env st ev) := by
  unfold step
  split
  · exact h
  · match ev with
    | .chunk data =>
      have hidle : allIdle st.tasks = true := hch data rfl
      have hscan : seqScan st.trace none = some none := h.1 hidle
      set R := runLoop env (({ st with buffer := st.buffer ++ data } : MState).buffer.length + 1)
        { st with buffer := st.buffer ++ data } with hR
      have hr := runLoop_seqScan env (({ st with buffer := st.buffer ++ data } : MState).buffer.length + 1)
        { st with buffer := st.buffer ++ data } hscan
      rw [← hR] at hr
      refine ⟨fun hid => ?_, fun j t hj => ?_⟩
      · have hid' : allIdle (st.tasks ++ [R.2]) = true := by
          have hx : allIdle (R.1.tasks ++ [R.2]) = true := hid
          rwa [hr.2] at hx
        have h2 : R.2 = none := by
          rw [allIdle, List.all_append] at hid'
          rcases hx : R.2 with _ | y
          · rfl
          · rw [hx] at hid'
            simp [allIdle] at hid'
        show seqScan R.1.trace none = some none
        rw [hr.1, h2]
        rfl
      · have hj' : (st.tasks ++ [R.2])[j]? = some (some t) := by
          have hx : (R.1.tasks ++ [R.2])[j]? = some (some t) := hj
          rwa [hr.2] at hx
        rcases Nat.lt_or_ge j st.tasks.length with hlt | hge
        · exfalso
          rw [List.getElem?_append_left hlt] at hj'
          cases allIdle_entry hidle hj'
        · rw [List.getElem?_append_right hge] at hj'
          rcases hk : j - st.tasks.length with _ | m
          · rw [hk] at hj'
            simp only [List.getElem?_cons_zero] at hj'
            have hR2 : R.2 = some t := by
              simpa using hj'
            constructor
            · show seqScan R.1.trace none = some (some t.req.id)
              rw [hr.1, hR2]
              rfl
            · intro k u hk'
              have hk'' : (st.tasks ++ [R.2])[k]? = some (some u) := by
                have hx : (R.1.tasks ++ [R.2])[k]? = some (some u) := hk'
                rwa [hr.2] at hx
              rcases Nat.lt_or_ge k st.tasks.length with hklt | hkge
              · exfalso
                rw [List.getElem?_append_left hklt] at hk''
                cases allIdle_entry hidle hk''
              · rw [List.getElem?_append_right hkge] at hk''
                rcases hm : k - st.tasks.length with _ | m
                · omega
                · rw [hm] at hk''
                  simp at hk''
          · rw [hk] at hj'
            simp at hj'
    | .resume slot =>
      rcases ht : st.tasks.getD slot none with _ | t
      · simp only [ht]
        exact h
      · simp only [ht]
        have hslot : st.tasks[slot]? = some (some t) := by
          rw [List.getD_eq_getElem?_getD] at ht
          rcases hx : st.tasks[slot]? with _ | x
          · rw [hx] at ht
            cases ht
          · rw [hx] at ht
            simp only [Option.getD_some] at ht
            rw [ht]
        have hslotlen : slot < st.tasks.length := by
          by_contra hc
          rw [List.getElem?_eq_none (by omega)] at hslot
          cases hslot
        obtain ⟨hscan, huniq⟩ := h.2 slot t hslot
        have hscan1 : seqScan (st.trace ++ [.write (.resp none t.req.id t.resp)]) none
            = some none := by
          rw [seqScan_append, hscan]
          simp [seqScan]
        set R := runLoop env (st.buffer.length + 1)
          { st with
            trace := st.trace ++ [.write (.resp none t.req.id t.resp)],
            tasks := st.tasks.set slot none } with hR
        have hr := runLoop_seqScan env (st.buffer.length + 1)
          { st with
            trace := st.trace ++ [.write (.resp none t.req.id t.resp)],
            tasks := st.tasks.set slot none } hscan1
        rw [← hR] at hr
        have htasks : R.1.tasks.set slot R.2 = st.tasks.set slot R.2 := by
          rw [hr.2, List.set_set]
        refine ⟨fun hid => ?_, fun j u hj => ?_⟩
        · have hid' : allIdle (st.tasks.set slot R.2) = true := by
            have hx : allIdle (R.1.tasks.set slot R.2) = true := hid
            rwa [htasks] at hx
          have hs : (st.tasks.set slot R.2)[slot]? = some R.2 :=
            List.getElem?_set_self hslotlen
          have h2 := allIdle_entry hid' hs
          show seqScan R.1.trace none = some none
          rw [hr.1, h2]
          rfl
        · have hj' : (st.tasks.set slot R.2)[j]? = some (some u) := by
            have hx : (R.1.tasks.set slot R.2)[j]? = some (some u) := hj
            rwa [htasks] at hx
          by_cases hjs : j = slot
          · subst hjs
            rw [List.getElem?_set_self hslotlen] at hj'
            have hR2 : R.2 = some u := by
              simpa using hj'
            constructor
            · show seqScan R.1.trace none = some (some u.req.id)
              rw [hr.1, hR2]
              rfl
            · intro k v hk
              have hk' : (st.tasks.set j R.2)[k]? = some (some v) := by
                have hx : (R.1.tasks.set j R.2)[k]? = some (some v) := hk
                rwa [htasks] at hx
              by_cases hks : k = j
              · exact hks
              · exfalso
                rw [List.getElem?_set_ne (by omega : j ≠ k)] at hk'
                exact hks (huniq k v hk')
          · exfalso
            rw [List.getElem?_set_ne (by omega : slot ≠ j)] at hj'
            exact hjs (huniq j u hj')
    | .procStep pidx =>
      rcases hp : st.procs[pidx]? with _ | p
      · simp only [hp]
        exact h
      · simp only [hp]
        have hskip : ∀ (j : Nat) (id : Option Nat) (e : StreamEv),
            seqScan (st.trace ++ [.write (.ev j id e)]) none = seqScan st.trace none := by
          intro j id e
          rw [seqScan_append]
          rcases hx : seqScan st.trace none with _ | y
          · rfl
          · rfl
        split
        · exact ⟨fun hid => by rw [hskip]; exact h.1 hid,
            fun j t hj => by
              obtain ⟨h1, h2⟩ := h.2 j t hj
              exact ⟨by rw [hskip]; exact h1, h2⟩⟩
        · split
          · exact h
          · exact ⟨fun hid => by rw [hskip]; exact h.1 hid,
              fun j t hj => by
                obtain ⟨h1, h2⟩ := h.2 j t hj
                exact ⟨by rw [hskip]; exact h1, h2⟩⟩

theorem run_append_event (env : MEnv) (sched : List SchedEv) (ev : SchedEv) :
    run env (sched ++ [ev]) = step env (run env sched) ev := by
  simp [run, List.foldl_append]

/-- If every chunk arrives while no listener iteration is suspended, the
whole run satisfies the sequencing invariant. -/
theorem run_seqInv (env : MEnv) (sched : List SchedEv)
    (hq : ∀ (k : Nat) (d : List Nat), sched[k]? = some (.chunk d) →
      allIdle ((run env (sched.take k)).tasks) = true) :
    SeqInv (run env sched) := by
  induction sched using List.reverseRecOn with
  | nil =>
    exact ⟨fun _ => rfl, fun j t hj => by simp [run, initState] at hj⟩
  | append_singleton s ev ih =>
    have hqpre : ∀ (k : Nat) (d : List Nat), s[k]? = some (.chunk d) →
        allIdle ((run env (s.take k)).tasks) = true := by
      intro k d hk
      have hlt : k < s.length := by
        by_contra hc
        rw [List.getElem?_eq_none (by omega)] at hk
        cases hk
      have := hq k d (by rwa [List.getElem?_append_left hlt])
      rwa [List.take_append_of_le_length (by omega)] at this
    have hS := ih hqpre
    rw [run_append_event]
    apply step_seqInv env ev (run env s) hS
    intro d hev
    subst hev
    have := hq s.length d (by rw [List.getElem?_concat_length])
    rwa [show (s ++ [SchedEv.chunk d]).take s.length = s from List.take_left s _] at this

/-- The two requests of the race scenario. -/
def c8ReqA : Request := ⟨some 10, "readFile", { path := some "f" }⟩

def c8ReqB : Request := ⟨some 20, "readFile", { path := some "g" }⟩

/-- Frame payload `[1]` decodes to request A, `[2]` to request B; `readFile`
is a blocking (I/O-awaiting) command whose eventual value is an ok
response. -/
def c8Env : MEnv :=
  ⟨fun pl => if pl = [1] then some c8ReqA else if pl = [2] then some c8ReqB else none,
   fun _ => ⟨true, some (.str "data"), false⟩, fun _ => ⟨[], 0⟩⟩

/-- The racing schedule: the two frames arrive in separate chunks while the
first handler is still awaiting its file read; both reads then settle. -/
def c8Sched : List SchedEv :=
  [.chunk (encodeFrame [1]), .chunk (encodeFrame [2]), .resume 0, .resume 1]

/-- **C8 counterexample.**  The claim "the Response for one decoded Request
is written to the connection before the next buffered Request's handler is
invoked, for every sequence of inbound chunks" is false on the code: the
`data` listener is an `async` function, so when a second chunk arrives
while the first request's handler is still awaiting I/O, the second
request's handler is invoked before the first response is written.  In the
concrete run below the trace is: invoke A, invoke B, response A,
response B — the sequencing checker rejects it. -/
theorem claim_C8_counterexample :
    seqScan (run c8Env c8Sched).trace none = none
    ∧ (run c8Env c8Sched).trace
      = [.invoke c8ReqA, .invoke c8ReqB,
         .write (.resp none (some 10) ⟨true, some (.str "data"), false⟩),
         .write (.resp none (some 20) ⟨true, some (.str "data"), false⟩)] := by
  decide

/-- **C8 (amended).**  Within a single connection, frame decoding and
handler execution are sequenced — the response for one decoded request is
written before the next buffered request's handler is invoked, with only
stream events interleaving — provided every chunk arrives while no handler
of that connection is still pending (in particular for any number of
requests coalesced into one chunk).  When a chunk arrives while an earlier
handler is awaiting I/O, the next handler can be invoked before the
earlier response is written (see the counterexample). -/
theorem claim_C8_amended_sequencing (env : MEnv) (sched : List SchedEv)
    (hq : ∀ (k : Nat) (d : List Nat), sched[k]? = some (.chunk d) →
      allIdle ((run env (sched.take k)).tasks) = true) :
    (seqScan (run env sched).trace none).isSome = true := by
  have hS := run_seqInv env sched hq
  by_cases hb : ∃ (j : Nat) (t : Task), (run env sched).tasks[j]? = some (some t)
  · obtain ⟨j, t, hj⟩ := hb
    rw [(hS.2 j t hj).1]
    rfl
  · have hid : allIdle (run env sched).tasks = true := by
      rw [allIdle, List.all_eq_true]
      intro x hx
      rcases hv : x with _ | t
      · rfl
      · exfalso
        obtain ⟨j, hj⟩ := List.getElem?_of_mem hx
        exact hb ⟨j, t, by rw [← hv]; exact hj⟩
    rw [hS.1 hid]
    rfl

/-- Witness for the amended C8: both frames coalesced into a single chunk;
the first handler suspends; its resumption writes response A and only then
invokes handler B from the shared buffer. -/
theorem claim_C8_amended_witness :
    (seqScan (run c8Env
        [.chunk (encodeFrame [1] ++ encodeFrame [2]), .resume 0, .resume 0]).trace
      none).isSome = true := by
  apply claim_C8_amended_sequencing
  intro k d hk
  match k with
  | 0 => decide
  | 1 => simp at hk
  | 2 => simp at hk
  | (n + 3) =>
    rw [List.getElem?_eq_none (by simp)] at hk
    cases hk

end VCCE

